import Mathlib

/-
Verification of the graph-theory engine (graphtheory.cc / graphe.h).

The command layer (graphtheory.cc) is embedded faithfully: parse_matrix,
the matrix branches of the `graph` command, the wrappers `_number_of_edges`,
`_is_directed`, `_maximum_matching`, `_is_biconnected`, `_articulation_points`,
`_dijkstra`, `_draw_graph`, `_girth`, `_odd_girth`, `_is_graphic_sequence`.
The engine implementation (graphe.cc) is not part of the sources; graphe
member functions are modelled from the specification where needed, each such
definition carries a doc comment saying so.

Conventions of the embedding: giac `gen` numeric values become ℚ, vertex
labels become ℤ, giac vectors become lists, fallible commands return
`Except GtErr`.  Vertices are index-addressed 0..n-1; an undirected edge is
stored as two symmetric adjacency entries, as in the data model of graphe.h.
-/

namespace GT

/-- Error conditions of the command layer (gt_error_messages in
graphtheory.cc), restricted to the ones the embedded commands can raise. -/
inductive GtErr
  | dimErr
  | typErr
  | matrixNotSymmetric
  | undirectedRequired
  | unweightedRequired
  | notATree
  | notPlanar
deriving DecidableEq

/-- A vertex record: a label and the adjacency list (neighbor index paired
with the edge weight attribute, default 1), after graphe.h `class vertex`
(label, neighbor attributes, neighbors). -/
structure Vertex where
  label : ℤ
  neighbors : List (ℕ × ℚ)
deriving DecidableEq

/-- The graph: an ordered vertex list plus the graph-wide `directed` and
`weighted` boolean attributes, after graphe.h `class graphe`. -/
structure Graphe where
  nodes : List Vertex
  directed : Bool
  weighted : Bool
deriving DecidableEq

/-- The empty graph (default-constructed graphe). -/
def emptyGraph : Graphe := ⟨[], false, false⟩

/-- Number of vertices (graphe::node_count). -/
def nodeCount (G : Graphe) : ℕ := G.nodes.length

/-- The ordered list of vertex labels (graphe::vertices). -/
def labels (G : Graphe) : List ℤ := G.nodes.map (fun v => v.label)

/-- Label of vertex i (graphe::node_label); 0 when out of range. -/
def labelAt (G : Graphe) (i : ℕ) : ℤ := ((G.nodes.get? i).map (fun v => v.label)).getD 0

/-- Adjacency list of vertex i; empty when out of range. -/
def nbrsAt (G : Graphe) (i : ℕ) : List (ℕ × ℚ) :=
  ((G.nodes.get? i).map (fun v => v.neighbors)).getD []

/-- Edge existence by adjacency lookup (graphe::has_edge).
Modelled from the spec: edge existence is queried by adjacency lookup. -/
def hasEdge (G : Graphe) (i j : ℕ) : Bool :=
  (nbrsAt G i).any (fun p => p.1 == j)

/-- Weight attribute of the adjacency entry (i,j) (graphe::weight);
defaults to 1, the default edge weight of the data model. -/
def weight (G : Graphe) (i j : ℕ) : ℚ :=
  (((nbrsAt G i).find? (fun p => p.1 == j)).map Prod.snd).getD 1

/-- Append a neighbor entry unless already present (vertex::add_neighbor).
Modelled from the spec: adding an existing adjacency is a no-op. -/
def addNeighbor (v : Vertex) (j : ℕ) (w : ℚ) : Vertex :=
  if v.neighbors.any (fun p => p.1 == j) then v else ⟨v.label, v.neighbors ++ [(j, w)]⟩

/-- Replace vertex i by f applied to it; no-op when out of range. -/
def modifyNode (G : Graphe) (i : ℕ) (f : Vertex → Vertex) : Graphe :=
  match G.nodes.get? i with
  | some v => ⟨G.nodes.set i (f v), G.directed, G.weighted⟩
  | none => G

/-- Add an edge between indices i and j with weight w (graphe::add_edge).
Modelled from the spec: directed graphs store one adjacency entry,
undirected graphs store the two symmetric entries. -/
def add_edge (G : Graphe) (i j : ℕ) (w : ℚ) : Graphe :=
  let G1 := modifyNode G i (fun v => addNeighbor v j w)
  if G.directed then G1 else modifyNode G1 j (fun v => addNeighbor v i w)

/-- Add a vertex with the given label, returning the graph unchanged when the
label is already present (graphe::add_node).
Modelled from the spec: labels are unique, lookup is by label. -/
def add_node (G : Graphe) (l : ℤ) : Graphe :=
  if (labels G).contains l then G else ⟨G.nodes ++ [⟨l, []⟩], G.directed, G.weighted⟩

/-- Add a list of vertices in order (graphe::add_nodes). -/
def add_nodes (G : Graphe) (ls : List ℤ) : Graphe := ls.foldl add_node G

/-- Index of the vertex with the given label (graphe::node_index);
none plays the role of the -1 sentinel. -/
def node_index (G : Graphe) (l : ℤ) : Option ℕ := (labels G).findIdx? (fun x => x == l)

/-- Set the graph-wide directed attribute (graphe::set_directed). -/
def set_directed (G : Graphe) (b : Bool) : Graphe := ⟨G.nodes, b, G.weighted⟩

/-- Set the graph-wide weighted attribute (graphe::set_weighted). -/
def set_weighted (G : Graphe) (b : Bool) : Graphe := ⟨G.nodes, G.directed, b⟩

/-- Number of edges (graphe::edge_count).
Modelled from the spec: each undirected edge is stored as two symmetric
adjacency entries, so the entry total is halved for undirected graphs. -/
def edge_count (G : Graphe) : ℕ :=
  let tot := (G.nodes.map (fun v => v.neighbors.length)).sum
  if G.directed then tot else tot / 2

/-- The directed flag (graphe::is_directed). -/
def is_directed (G : Graphe) : Bool := G.directed

/-- The weighted flag (graphe::is_weighted). -/
def is_weighted (G : Graphe) : Bool := G.weighted

/-- Default vertex labels 0..n-1 (graphe::make_default_labels).
Modelled from the spec: vertices enumerated with the first n integers. -/
def make_default_labels (n : ℕ) : List ℤ := (List.range n).map (fun k => (k : ℤ))

/-- Entry (i,j) of a matrix given as a list of rows; 0 out of range. -/
def entry (m : List (List ℚ)) (i j : ℕ) : ℚ := ((m.get? i).bind (fun r => r.get? j)).getD 0

/-- Transpose of a square matrix (giac mtran, restricted to square input). -/
def mtran (m : List (List ℚ)) : List (List ℚ) :=
  (List.range m.length).map (fun j => (List.range m.length).map (fun i => entry m i j))

/-- Make the graph weighted with the weights of matrix m
(graphe::make_weighted).  Modelled from the spec: the weighted flag is set
and every stored adjacency entry (i,j) receives weight m[i][j]. -/
def make_weighted (G : Graphe) (m : List (List ℚ)) : Graphe :=
  ⟨(List.range (nodeCount G)).map
      (fun i => ⟨labelAt G i, (nbrsAt G i).map (fun p => (p.1, entry m i p.1))⟩),
   G.directed, true⟩

/-- The index pairs visited by the edge loop of parse_matrix: the full square
for a directed graph, the strict upper triangle otherwise
(graphtheory.cc lines 213-214). -/
def pmPairs (n : ℕ) (isdir : Bool) : List (ℕ × ℕ) :=
  (List.range n).flatMap
    (fun i => (if isdir then List.range n else List.range' (i+1) (n - (i+1))).map
      (fun j => (i, j)))

/-- One step of the edge loop of parse_matrix (graphtheory.cc lines 215-220):
a non-zero entry adds the edge, a non-unit entry marks the graph weighted. -/
def pmStep (m : List (List ℚ)) (st : Graphe × Bool) (ij : ℕ × ℕ) : Graphe × Bool :=
  let w := entry m ij.1 ij.2
  if w ≠ 0 then (add_edge st.1 ij.1 ij.2 1, st.2 || decide (w ≠ 1)) else st

/-- parse_matrix (graphtheory.cc lines 196-227).  The has_num_coeff test of
line 203 always succeeds in this embedding because matrix entries are ℚ.
Mode 0 creates default-labeled vertices; modes 0 and 1 run the edge loop;
the graph is made directed exactly when it already is or the matrix is
asymmetric; a weight matrix, or any entry other than 0 and 1, makes the
graph weighted. -/
def parse_matrix (G : Graphe) (m : List (List ℚ)) (iswei : Bool) (mode : ℕ) :
    Except GtErr Graphe :=
  let n := m.length
  if ((m.head?.map List.length).getD 0 ≠ n) ∨ (0 < mode ∧ nodeCount G ≠ n) then
    .error .dimErr
  else
    let isdir := G.directed || decide (m ≠ mtran m)
    let G0 := if mode = 0 then add_nodes G (make_default_labels n) else G
    let st := if mode < 2 then
        (pmPairs n isdir).foldl (pmStep m) (set_directed G0 isdir, iswei)
      else (G0, iswei)
    .ok (if st.2 then make_weighted st.1 m else st.1)

/-- giac ckmatrix: a non-empty list of rows of equal length. -/
def ckmatrix (m : List (List ℚ)) : Bool :=
  decide (m ≠ []) && m.all (fun r => r.length == (m.head?.map List.length).getD 0)

/-- giac is_squarematrix: a matrix with as many rows as columns. -/
def is_squarematrix (m : List (List ℚ)) : Bool :=
  ckmatrix m && ((m.head?.map List.length).getD 0 == m.length)

/-- The branch of the `graph` command taking the adjacency matrix as the sole
argument (graphtheory.cc lines 496-500): requires a square matrix with more
than 2 rows and calls parse_matrix in mode 0 on a fresh graph. -/
def graphFromMatrix (m : List (List ℚ)) : Except GtErr Graphe :=
  if is_squarematrix m && decide (2 < m.length) then parse_matrix emptyGraph m false 0
  else .error .typErr

/-- The branch of the `graph` command for the call graph(V, A) with a vertex
list V and a matrix A and no options (graphtheory.cc lines 536-544): the
vertex list is added first (argument i=0); for the matrix argument (i=1) an
asymmetry check runs before parse_matrix when the graph is undirected. -/
def graphVA (V : List ℤ) (m : List (List ℚ)) : Except GtErr Graphe :=
  if ckmatrix m then
    let G := add_nodes emptyGraph V
    if !(is_directed G) && decide (m ≠ mtran m) then .error .matrixNotSymmetric
    else parse_matrix G m false 1
  else .error .typErr

/-- The wrapper _number_of_edges (graphtheory.cc lines 2542-2548). -/
def numberOfEdges (G : Graphe) : ℕ := edge_count G

/-- The wrapper _is_directed (graphtheory.cc lines 2625-2631). -/
def isDirectedCmd (G : Graphe) : Bool := is_directed G

/-- A giac value as seen by _is_graphic_sequence: an integer or anything
else (strings, symbols, fractions...). -/
inductive GVal
  | int (z : ℤ)
  | nonint
deriving DecidableEq

/-- Whether a GVal is an integer (gen::is_integer). -/
def gvalIsInt : GVal → Bool
  | .int _ => true
  | .nonint => false

/-- The integer value of a GVal (0 for the non-integer case, never used
on that case by is_graphic_sequence). -/
def gvalToInt : GVal → ℤ
  | .int z => z
  | .nonint => 0

/-- Sort a list of integers in descending order (giac _SortD). -/
def sortD (l : List ℤ) : List ℤ := l.insertionSort (fun a b => b ≤ a)

/-- Partial sum S of the k largest degrees in the Erdos-Gallai loop of
_is_graphic_sequence. -/
def egS (deg : List ℤ) (k : ℕ) : ℤ := (deg.take k).sum

/-- The sum M of min(deg i, k) over i ≥ k in the Erdos-Gallai loop of
_is_graphic_sequence. -/
def egM (deg : List ℤ) (k : ℕ) : ℤ := ((deg.drop k).map (fun d => min d (k : ℤ))).sum

/-- _is_graphic_sequence (graphtheory.cc lines 4266-4289): reject any
element that is not an integer, is negative or is at least the length of the
list; sort descending; reject an odd sum; then run the Erdos-Gallai test,
returning false at the first violated inequality and true otherwise. -/
def is_graphic_sequence (L : List GVal) : Bool :=
  let n := L.length
  if L.any (fun g => !gvalIsInt g || decide (gvalToInt g < 0) ||
      decide ((n : ℤ) ≤ gvalToInt g)) then false
  else
    let deg := sortD (L.map gvalToInt)
    if deg.sum % 2 ≠ 0 then false
    else (List.range n).all (fun k0 =>
      let k := k0 + 1
      decide (egS deg k ≤ (k : ℤ) * ((k : ℤ) - 1) + egM deg k))

/-- Rebuild a graph over the same vertex labels with the adjacency given by
a predicate on index pairs: vertex i receives the neighbors j < n with
f i j, each with the default weight 1.  Shared shape of the modelled
graph transformations below. -/
def rebuildOnPred (G : Graphe) (f : ℕ → ℕ → Bool) (dir wei : Bool) : Graphe :=
  ⟨(List.range (nodeCount G)).map (fun i =>
      ⟨labelAt G i, ((List.range (nodeCount G)).filter (fun j => f i j)).map
        (fun j => (j, (1 : ℚ)))⟩),
   dir, wei⟩

/-- The underlying graph (graphe::underlying).
Modelled from the spec: same vertex set, directions and weights stripped,
a pair of opposite arcs merged into a single edge; the result is undirected
and unweighted with symmetric adjacency. -/
def underlying (G : Graphe) : Graphe :=
  rebuildOnPred G (fun i j => hasEdge G i j || hasEdge G j i) false false

/-- The complement graph (graphe::complement).
Modelled from the spec: same vertex set, and exactly the edges (arcs) of
the complete graph absent from G; no self-loops; unweighted. -/
def complement (G : Graphe) : Graphe :=
  rebuildOnPred G (fun i j => decide (j ≠ i) && !(hasEdge G i j)) G.directed false

/-- Equality test of two graphs (graphe::is_equal, the _graph_equal
command).  Modelled from the _graph_equal documentation in graphtheory.cc:
the vertex sets and their orderings coincide, the directed and weighted
flags coincide, the edge sets coincide, and on weighted graphs every common
edge carries the same weight. -/
def is_equal (G1 G2 : Graphe) : Bool :=
  (G1.directed == G2.directed) && (G1.weighted == G2.weighted) &&
  (labels G1 == labels G2) &&
  ((List.range (nodeCount G1)).all (fun i => (List.range (nodeCount G1)).all (fun j =>
    (hasEdge G1 i j == hasEdge G2 i j) &&
    (!(G1.weighted && hasEdge G1 i j) || (weight G1 i j == weight G2 i j)))))

/-- No vertex of G has an edge to itself. -/
def noSelfLoop (G : Graphe) : Bool :=
  (List.range (nodeCount G)).all (fun i => !(hasEdge G i i))

/-- Every stored adjacency entry points to an existing vertex. -/
def inRange (G : Graphe) : Bool :=
  G.nodes.all (fun v => v.neighbors.all (fun p => p.1 < nodeCount G))

/-- The stored adjacency is symmetric (the invariant of undirected graphs
in the data model). -/
def symmetricAdj (G : Graphe) : Bool :=
  (List.range (nodeCount G)).all (fun i => (List.range (nodeCount G)).all
    (fun j => hasEdge G i j == hasEdge G j i))

/-- A simple graph in the sense of the spec: undirected, unweighted, with
well-formed symmetric adjacency and no self-loops. -/
def simpleGraph (G : Graphe) : Bool :=
  !G.directed && !G.weighted && noSelfLoop G && inRange G && symmetricAdj G

/-- A concrete simple graph, the triangle, used as a witness input. -/
def triangleGraph : Graphe :=
  ⟨[⟨0, [(1, 1), (2, 1)]⟩, ⟨1, [(0, 1), (2, 1)]⟩, ⟨2, [(0, 1), (1, 1)]⟩], false, false⟩

/-- Neighbor indices of vertex i (graphe::adjacent_nodes, stored order). -/
def adjList (G : Graphe) (i : ℕ) : List ℕ := (nbrsAt G i).map Prod.fst

/-- DFS bookkeeping of the cut-vertex search: per-vertex visited flag,
discovery time, low-link, articulation flag, and the global clock, after
the scratch fields of graphe.h `class vertex`. -/
structure CvState where
  visited : ℕ → Bool
  disc : ℕ → ℕ
  low : ℕ → ℕ
  ap : ℕ → Bool
  time : ℕ

/-- One DFS visit of the cut-vertex search (graphe::find_cut_vertices_dfs).
Modelled from the spec: one DFS computes discovery time and low-link; a
back edge to a vertex other than the DFS ancestor lowers the low-link to
that discovery time; a tree child lowers the low-link to the child's
low-link; a non-root vertex is marked as a cut vertex when some child's
low-link is at least its own discovery time; the root is marked when it
has more than one DFS-tree child.  The fuel argument bounds the recursion
depth and is at least the vertex count at every call site. -/
def cvVisit (G : Graphe) : ℕ → ℕ → Option ℕ → CvState → CvState
  | 0, _, _, st => st
  | fuel+1, i, parent, st =>
    let st1 : CvState :=
      ⟨fun k => if k = i then true else st.visited k,
       fun k => if k = i then st.time else st.disc k,
       fun k => if k = i then st.time else st.low k,
       st.ap, st.time + 1⟩
    let res := (adjList G i).foldl (fun (acc : CvState × ℕ) j =>
      let st' := acc.1
      if st'.visited j then
        if some j ≠ parent then
          (⟨st'.visited,
            st'.disc,
            fun k => if k = i then min (st'.low i) (st'.disc j) else st'.low k,
            st'.ap, st'.time⟩, acc.2)
        else acc
      else
        let st2 := cvVisit G fuel j (some i) st'
        let st3 : CvState :=
          ⟨st2.visited, st2.disc,
           fun k => if k = i then min (st2.low i) (st2.low j) else st2.low k,
           st2.ap, st2.time⟩
        let st4 : CvState :=
          if parent.isSome && decide (st2.disc i ≤ st2.low j) then
            ⟨st3.visited, st3.disc, st3.low,
             fun k => if k = i then true else st3.ap k, st3.time⟩
          else st3
        (st4, acc.2 + 1)) (st1, 0)
    if parent.isNone && decide (1 < res.2) then
      ⟨res.1.visited, res.1.disc, res.1.low,
       fun k => if k = i then true else res.1.ap k, res.1.time⟩
    else res.1

/-- The list of cut vertices (graphe::find_cut_vertices).
Modelled from the spec: run the low-link DFS from every still-unvisited
vertex, then collect the marked vertices. -/
def find_cut_vertices (G : Graphe) : List ℕ :=
  let n := nodeCount G
  let final := (List.range n).foldl
    (fun st i => if st.visited i then st else cvVisit G n i none st)
    ⟨fun _ => false, fun _ => 0, fun _ => 0, fun _ => false, 0⟩
  (List.range n).filter (fun i => final.ap i)

/-- One expansion of a reachability frontier along stored adjacency. -/
def frontierStep (G : Graphe) (reach : List ℕ) : List ℕ :=
  (reach ++ reach.flatMap (fun i => adjList G i)).dedup

/-- Vertices reachable from vertex 0 after n frontier expansions. -/
def reachSet (G : Graphe) : List ℕ :=
  (List.range (nodeCount G)).foldl (fun r _ => frontierStep G r) [0]

/-- Connectedness test (graphe::is_connected).
Modelled from the spec: a traversal from one root discovers every vertex
exactly when the graph is connected; the empty graph counts as connected. -/
def is_connected (G : Graphe) : Bool :=
  decide (nodeCount G = 0) ||
    (List.range (nodeCount G)).all (fun i => (reachSet G).contains i)

/-- Biconnectedness test (graphe::is_biconnected).
Modelled from the spec: connectedness and biconnectedness are boolean
derivations of the cut-vertex analysis — the graph is biconnected when it
is connected and the cut-vertex search marks no vertex. -/
def is_biconnected (G : Graphe) : Bool :=
  is_connected G && (find_cut_vertices G).isEmpty

/-- A concrete graph on three isolated vertices. -/
def threeIsolated : Graphe := ⟨[⟨0, []⟩, ⟨1, []⟩, ⟨2, []⟩], false, false⟩

/-- The drawing styles of _draw_graph (gt_layout_style plus the
unset default). -/
inductive DrawStyle
  | dstyDefault
  | spring
  | tree
  | planar
  | circle
deriving DecidableEq

/-- The facts about one connected component that the _draw_graph dispatch
consults: the outcome of C.is_tree(), the success of
C.make_planar_layout(x), and the style guessed by
C.guess_drawing_style().  These three graphe members live in the missing
graphe.cc and are abstracted here by fields. -/
structure CompInfo where
  treeTest : Bool
  planarTest : Bool
  guessed : DrawStyle
deriving DecidableEq

/-- The per-component style dispatch of _draw_graph (graphtheory.cc lines
1357-1385): the default method is replaced by the guessed style; the tree
style errors on a non-tree component when a method was explicitly
requested; the planar style errors whenever the planar layout fails;
spring and circle always produce a layout. -/
def drawComponent (check : Bool) (method : DrawStyle) (c : CompInfo) :
    Except GtErr DrawStyle :=
  let m := if method = .dstyDefault then c.guessed else method
  match m with
  | .spring => .ok .spring
  | .tree => if check && !c.treeTest then .error .notATree else .ok .tree
  | .planar => if !c.planarTest then .error .notPlanar else .ok .planar
  | .circle => .ok .circle
  | .dstyDefault => .ok .spring

/-- The component loop of _draw_graph (graphtheory.cc lines 1347-1390):
check is set exactly when a method was explicitly requested, and the
components are processed in order, stopping at the first reported error. -/
def draw_graph (method : DrawStyle) (comps : List CompInfo) :
    Except GtErr (List DrawStyle) :=
  comps.mapM (drawComponent (decide (method ≠ .dstyDefault)) method)

/-- The undirected edge list of a graph: the pairs (i,j) with i < j and an
edge stored between them (graphe::get_edges_as_pairs for undirected
graphs). -/
def undirEdges (G : Graphe) : List (ℕ × ℕ) :=
  (List.range (nodeCount G)).flatMap (fun i =>
    ((List.range (nodeCount G)).filter (fun j => decide (i < j) && hasEdge G i j)).map
      (fun j => (i, j)))

/-- The list of endpoints of a list of vertex pairs, with multiplicity. -/
def matchedVertices (m : List (ℕ × ℕ)) : List ℕ := m.flatMap (fun p => [p.1, p.2])

/-- Validity test of a matching: no vertex occurs twice among the matched
endpoints. -/
def isMatchingList (m : List (ℕ × ℕ)) : Bool := decide (matchedVertices m).Nodup

/-- Maximum-cardinality matching (graphe::maximize_matching).
Modelled from the spec: the blossom algorithm of the missing graphe.cc
computes a maximum-cardinality matching, starting from a valid matching and
enlarging it while an augmenting path exists; it is modelled here by its
observable contract, a valid matching of maximum size among all subsets of
the edge list. -/
def maximize_matching (G : Graphe) : List (ℕ × ℕ) :=
  ((undirEdges G).sublists.filter isMatchingList).foldl
    (fun best m => if best.length < m.length then m else best) []

/-- The wrapper _maximum_matching (graphtheory.cc lines 1010-1024): a
directed graph is rejected with the undirected-graph-required error,
otherwise the matching is returned as a list of label pairs. -/
def maximumMatchingCmd (G : Graphe) : Except GtErr (List (ℤ × ℤ)) :=
  if is_directed G then .error .undirectedRequired
  else .ok ((maximize_matching G).map (fun p => (labelAt G p.1, labelAt G p.2)))

/-- All duplicate-free lists with entries below n and length at most k,
built by repeatedly prepending a fresh vertex. -/
def nodupListsUpTo (n : ℕ) : ℕ → List (List ℕ)
  | 0 => [[]]
  | k+1 =>
    let prev := nodupListsUpTo n k
    prev ++ prev.flatMap (fun l =>
      ((List.range n).filter (fun v => !(l.contains v))).map (fun v => v :: l))

/-- Consecutive vertices of the list are adjacent in G. -/
def chainOk (G : Graphe) : List ℕ → Bool
  | [] => true
  | [_] => true
  | a :: b :: rest => hasEdge G a b && chainOk G (b :: rest)

/-- A cycle of G given as a vertex list: at least 3 pairwise distinct
vertices, all in range, consecutive ones adjacent, and the last adjacent
to the first. -/
def isCycleList (G : Graphe) (l : List ℕ) : Bool :=
  match l with
  | [] => false
  | v :: rest =>
    decide ((v :: rest).Nodup) && decide (3 ≤ (v :: rest).length) &&
    (v :: rest).all (fun u => decide (u < nodeCount G)) &&
    chainOk G (v :: rest) &&
    hasEdge G ((v :: rest).getLast (List.cons_ne_nil v rest)) v

/-- The candidate cycles of G: the enumerated duplicate-free vertex lists
that form a cycle, restricted to odd length when odd is set. -/
def cycleCandidates (G : Graphe) (odd : Bool) : List (List ℕ) :=
  (nodupListsUpTo (nodeCount G) (nodeCount G)).filter
    (fun l => isCycleList G l && (!odd || decide (l.length % 2 = 1)))

/-- Bounded existence test for an (odd) cycle. -/
def hasCycleB (G : Graphe) (odd : Bool) : Bool := !(cycleCandidates G odd).isEmpty

/-- Length of a shortest (odd) cycle, with a negative sentinel when none
exists (graphe::girth).  Modelled from the contract visible in the _girth
wrapper of graphtheory.cc: a negative return value signals that no (odd)
cycle exists, otherwise the shortest (odd) cycle length is returned. -/
def girthInternal (G : Graphe) (odd : Bool) : ℤ :=
  match (cycleCandidates G odd).map (fun l => (l.length : ℤ)) with
  | [] => -1
  | x :: xs => xs.foldl min x

/-- The wrappers _girth and _odd_girth (graphtheory.cc lines 4324-4356):
directed and weighted graphs are rejected with the corresponding errors;
a negative internal girth is translated to plus infinity. -/
def girthCmd (G : Graphe) (odd : Bool) : Except GtErr (WithTop ℕ) :=
  if is_directed G then .error .undirectedRequired
  else if is_weighted G then .error .unweightedRequired
  else .ok (if girthInternal G odd < 0 then (⊤ : WithTop ℕ)
            else ((girthInternal G odd).toNat : WithTop ℕ))

/-- Cost of a vertex list read as a walk: the sum of the edge weights of
consecutive entries, where a missing edge has weight ⊤; the empty list is
not a walk and costs ⊤, a single vertex costs 0. -/
def walkCost {n : ℕ} (ew : Fin n → Fin n → WithTop ℚ) : List (Fin n) → WithTop ℚ
  | [] => ⊤
  | [_] => (0 : WithTop ℚ)
  | a :: b :: l => ew a b + walkCost ew (b :: l)

/-- A vertex list leading from s to t. -/
def WalkFrom {n : ℕ} (s t : Fin n) (l : List (Fin n)) : Prop :=
  l.head? = some s ∧ l.getLast? = some t

/-- Reachability along edges of finite weight. -/
def ReachableW {n : ℕ} (ew : Fin n → Fin n → WithTop ℚ) (s t : Fin n) : Prop :=
  Relation.ReflTransGen (fun a b => ew a b ≠ ⊤) s t

/-- State of the Dijkstra frontier loop: tentative distances, the settled
vertex set, and parent pointers for path reconstruction. -/
structure DijkState (n : ℕ) where
  dist : Fin n → WithTop ℚ
  visited : Finset (Fin n)
  par : Fin n → Option (Fin n)

/-- Unsettled vertices with a finite tentative distance. -/
def dijkCandidates {n : ℕ} (st : DijkState n) : List (Fin n) :=
  (List.finRange n).filter
    (fun v => decide (v ∉ st.visited) && decide (st.dist v ≠ ⊤))

/-- The unsettled vertex with the least finite tentative distance, if any
(the priority-ordered frontier extraction of the spec). -/
def pickMin {n : ℕ} (st : DijkState n) : Option (Fin n) :=
  match dijkCandidates st with
  | [] => none
  | c :: cs =>
    some (cs.foldl (fun best v => if st.dist v < st.dist best then v else best) c)

/-- Settle vertex u and relax all edges leaving it. -/
def relax {n : ℕ} (ew : Fin n → Fin n → WithTop ℚ) (u : Fin n) (st : DijkState n) :
    DijkState n :=
  ⟨fun v => if st.dist u + ew u v < st.dist v then st.dist u + ew u v else st.dist v,
   insert u st.visited,
   fun v => if st.dist u + ew u v < st.dist v then some u else st.par v⟩

/-- The Dijkstra main loop (graphe::dijkstra).
Modelled from the spec: shortest weighted distances from one source via a
priority-ordered frontier — repeatedly settle the unsettled vertex of
least tentative distance and relax its outgoing edges; the fuel argument
bounds the iteration count and equals the vertex count at the call site,
which suffices because every iteration settles a new vertex. -/
def dijkstraLoop {n : ℕ} (ew : Fin n → Fin n → WithTop ℚ) :
    ℕ → DijkState n → DijkState n
  | 0, st => st
  | fuel+1, st =>
    match pickMin st with
    | none => st
    | some u => dijkstraLoop ew fuel (relax ew u st)

/-- The initial Dijkstra state: source at distance 0, all else unreached. -/
def dijkstraInit {n : ℕ} (s : Fin n) : DijkState n :=
  ⟨fun v => if v = s then (0 : WithTop ℚ) else ⊤, ∅, fun _ => none⟩

/-- Run the Dijkstra loop to completion from source s. -/
def dijkstraRun {n : ℕ} (ew : Fin n → Fin n → WithTop ℚ) (s : Fin n) : DijkState n :=
  dijkstraLoop ew n (dijkstraInit s)

/-- Edge weights of a graph as a total function into WithTop ℚ: the stored
weight on an edge, ⊤ otherwise. -/
def graphEW (G : Graphe) (i j : Fin (nodeCount G)) : WithTop ℚ :=
  if hasEdge G i j then (weight G i j : WithTop ℚ) else ⊤

/-- Reconstruct the path to t by following parent pointers, with fuel. -/
def pathTo {n : ℕ} (st : DijkState n) : ℕ → Fin n → List (Fin n)
  | 0, t => [t]
  | f+1, t =>
    match st.par t with
    | none => [t]
    | some p => pathTo st f p ++ [t]

/-- The dijkstra command for one source and one target (graphtheory.cc
lines 3908-3963): the pair of reported path and reported distance, where
an infinite distance is reported with an empty path (lines 3951-3953). -/
def dijkstraCmd (G : Graphe) (s t : Fin (nodeCount G)) :
    List (Fin (nodeCount G)) × WithTop ℚ :=
  let st := dijkstraRun (graphEW G) s
  (if st.dist t = ⊤ then [] else pathTo st (nodeCount G) t, st.dist t)

/-- A concrete weighted graph for the C3 witness: an edge of weight 2
between vertices 0 and 1, and an isolated vertex 2. -/
def dwGraph : Graphe :=
  ⟨[⟨0, [(1, 2)]⟩, ⟨1, [(0, 2)]⟩, ⟨2, []⟩], false, true⟩

/-- Vertex 0 of the witness graph. -/
def dwS : Fin (nodeCount dwGraph) := ⟨0, by decide⟩

/-- Vertex 2 of the witness graph. -/
def dwT : Fin (nodeCount dwGraph) := ⟨2, by decide⟩

/-- The loop invariant of the Dijkstra frontier: settled vertices have all
outgoing edges relaxed, settled distances never exceed unsettled ones, the
source has distance at most 0, and every finite distance is realized by an
actual walk from the source. -/
structure DijkInv {n : ℕ} (ew : Fin n → Fin n → WithTop ℚ) (s : Fin n)
    (st : DijkState n) : Prop where
  relaxed : ∀ u ∈ st.visited, ∀ v, st.dist v ≤ st.dist u + ew u v
  mono : ∀ u ∈ st.visited, ∀ v, v ∉ st.visited → st.dist u ≤ st.dist v
  src : st.dist s ≤ 0
  reach : ∀ v, st.dist v ≠ ⊤ → ∃ l, WalkFrom s v l ∧ walkCost ew l = st.dist v

/-- Tokens of the DOT text format, as described by the external-interface
contract: identifiers (the keywords graph/digraph, vertex names, the
attribute name weight), numbers, and the delimiters.  A vertex-name token
carries the vertex label. -/
inductive DotTok
  | kwGraph
  | kwDigraph
  | lbrace
  | rbrace
  | lbrack
  | rbrack
  | semi
  | equal
  | edgeU
  | edgeD
  | name (v : ℤ)
  | attrWeight
  | num (q : ℚ)
deriving DecidableEq

/-- The vertex statements of the DOT export: one statement per vertex, in
index order. -/
def vertexStmts (G : Graphe) : List DotTok :=
  (labels G).flatMap (fun l => [DotTok.name l, DotTok.semi])

/-- The edge operator of the export: -> for digraphs, -- otherwise. -/
def edgeTok (G : Graphe) : DotTok := if G.directed then .edgeD else .edgeU

/-- One edge statement of the DOT export, with a weight attribute exactly
when the graph is weighted. -/
def edgeStmt (G : Graphe) (p : ℕ × ℕ) : List DotTok :=
  [DotTok.name (labelAt G p.1), edgeTok G, DotTok.name (labelAt G p.2)] ++
  (if G.weighted then
    [DotTok.lbrack, DotTok.attrWeight, DotTok.equal,
     DotTok.num (weight G p.1 p.2), DotTok.rbrack]
   else []) ++
  [DotTok.semi]

/-- The edges written by the export: every arc of a digraph, every stored
pair with i < j otherwise. -/
def dotEdges (G : Graphe) : List (ℕ × ℕ) :=
  if G.directed then
    (List.range (nodeCount G)).flatMap (fun i =>
      ((List.range (nodeCount G)).filter (fun j => hasEdge G i j)).map (fun j => (i, j)))
  else undirEdges G

/-- The DOT export of a graph (graphe::write_dot).
Modelled from the spec: a graph or digraph block holding one statement per
vertex followed by one statement per edge, each edge statement carrying a
weight attribute when the graph is weighted. -/
def write_dot (G : Graphe) : List DotTok :=
  [if G.directed then DotTok.kwDigraph else DotTok.kwGraph, DotTok.lbrace] ++
  vertexStmts G ++ (dotEdges G).flatMap (edgeStmt G) ++ [DotTok.rbrace]

/-- Add the edge named by two labels, creating missing endpoints, and mark
the graph weighted when a weight attribute was read. -/
def addEdgeL (G : Graphe) (a b : ℤ) (w : ℚ) (useW : Bool) : Graphe :=
  let G1 := add_node (add_node G a) b
  let G2 := add_edge G1 ((node_index G1 a).getD 0) ((node_index G1 b).getD 0) w
  if useW then set_weighted G2 true else G2

/-- The statement loop of the DOT import: vertex statements add a vertex,
edge statements add an edge (with its weight attribute if present), the
closing brace ends the block; anything else is a read failure. -/
def readStmts : List DotTok → Graphe → Option Graphe
  | [DotTok.rbrace], G => some G
  | DotTok.name a :: DotTok.semi :: rest, G => readStmts rest (add_node G a)
  | DotTok.name a :: DotTok.edgeU :: DotTok.name b :: DotTok.semi :: rest, G =>
      if G.directed then none else readStmts rest (addEdgeL G a b 1 false)
  | DotTok.name a :: DotTok.edgeD :: DotTok.name b :: DotTok.semi :: rest, G =>
      if G.directed then readStmts rest (addEdgeL G a b 1 false) else none
  | DotTok.name a :: DotTok.edgeU :: DotTok.name b :: DotTok.lbrack ::
      DotTok.attrWeight :: DotTok.equal :: DotTok.num w :: DotTok.rbrack ::
      DotTok.semi :: rest, G =>
      if G.directed then none else readStmts rest (addEdgeL G a b w true)
  | DotTok.name a :: DotTok.edgeD :: DotTok.name b :: DotTok.lbrack ::
      DotTok.attrWeight :: DotTok.equal :: DotTok.num w :: DotTok.rbrack ::
      DotTok.semi :: rest, G =>
      if G.directed then readStmts rest (addEdgeL G a b w true) else none
  | _, _ => none

/-- The DOT import (graphe::read_dot).
Modelled from the spec: a graph or digraph block is read statement by
statement into a fresh graph; malformed input is a read failure, not a
partial graph. -/
def read_dot (ts : List DotTok) : Option Graphe :=
  match ts with
  | DotTok.kwGraph :: DotTok.lbrace :: rest => readStmts rest emptyGraph
  | DotTok.kwDigraph :: DotTok.lbrace :: rest =>
      readStmts rest (set_directed emptyGraph true)
  | _ => none

/-- Stored weights are symmetric (the undirected weighted invariant of the
data model). -/
def weightSymm (G : Graphe) : Bool :=
  (List.range (nodeCount G)).all (fun i => (List.range (nodeCount G)).all
    (fun j => !(hasEdge G i j) || (weight G i j == weight G j i)))

/-- A concrete weighted graph with no edges: the DOT text format has no
place to record the weighted flag of an edgeless graph. -/
def wEmptyGraph : Graphe := ⟨[⟨0, []⟩], false, true⟩

/-- A concrete weighted graph with one edge, used as a witness input. -/
def wPathGraph : Graphe :=
  ⟨[⟨5, [(1, 7)]⟩, ⟨9, [(0, 7)]⟩], false, true⟩

/-- The index-level effect of the edge phase of the DOT import: add each
listed edge with the exported weight (1 when the source is unweighted). -/
def importFold (Gsrc : Graphe) (es : List (ℕ × ℕ)) (H : Graphe) : Graphe :=
  es.foldl (fun H p => add_edge H p.1 p.2
    (if Gsrc.weighted then weight Gsrc p.1 p.2 else 1)) H

/-- One edge statement of the import, as executed on graphs whose vertex
phase is complete: the edge is added by index, and reading a weight
attribute (present exactly when the source is weighted) sets the weighted
flag. -/
def dotStep (Gsrc : Graphe) (H : Graphe) (p : ℕ × ℕ) : Graphe :=
  if Gsrc.weighted then set_weighted (add_edge H p.1 p.2 (weight Gsrc p.1 p.2)) true
  else add_edge H p.1 p.2 1

/-- The stored adjacency entries that an add_edge call for the pair q
creates or refreshes at position (x,y): the pair itself, and its flip when
the graph is undirected. -/
def coversPair (dir : Bool) (q : ℕ × ℕ) (x y : ℕ) : Prop :=
  (x = q.1 ∧ y = q.2) ∨ (dir = false ∧ x = q.2 ∧ y = q.1)

instance (dir : Bool) (q : ℕ × ℕ) (x y : ℕ) : Decidable (coversPair dir q x y) := by
  unfold coversPair
  infer_instance

end GT

deriving instance DecidableEq for Except

namespace GT

-- ------------------------------------------------------------------
-- Helper lemmas about the graph model
-- ------------------------------------------------------------------

/-- modifyNode does not touch the directed flag. -/
theorem modifyNode_directed (G : Graphe) (i : ℕ) (f : Vertex → Vertex) :
    (modifyNode G i f).directed = G.directed := by
  unfold modifyNode
  cases G.nodes.get? i <;> rfl

/-- add_edge does not touch the directed flag. -/
theorem add_edge_directed (G : Graphe) (i j : ℕ) (w : ℚ) :
    (add_edge G i j w).directed = G.directed := by
  unfold add_edge
  by_cases h : G.directed
  · simp [h, modifyNode_directed]
  · simp [h, modifyNode_directed]

/-- add_node does not touch the directed flag. -/
theorem add_node_directed (G : Graphe) (l : ℤ) :
    (add_node G l).directed = G.directed := by
  unfold add_node
  split <;> rfl

/-- add_nodes does not touch the directed flag. -/
theorem add_nodes_directed (G : Graphe) (ls : List ℤ) :
    (add_nodes G ls).directed = G.directed := by
  induction ls generalizing G with
  | nil => rfl
  | cons l ls ih => rw [add_nodes, List.foldl_cons, ← add_nodes, ih, add_node_directed]

/-- make_weighted does not touch the directed flag. -/
theorem make_weighted_directed (G : Graphe) (m : List (List ℚ)) :
    (make_weighted G m).directed = G.directed := rfl

/-- The edge loop of parse_matrix does not touch the directed flag. -/
theorem pmFold_directed (m : List (List ℚ)) (ps : List (ℕ × ℕ)) (st : Graphe × Bool) :
    ((ps.foldl (pmStep m) st).1).directed = st.1.directed := by
  induction ps generalizing st with
  | nil => rfl
  | cons p ps ih =>
    rw [List.foldl_cons, ih]
    simp only [pmStep]
    by_cases hw : entry m p.1 p.2 ≠ 0
    · rw [if_pos hw]
      exact add_edge_directed _ _ _ _
    · rw [if_neg hw]

/-- A square matrix has a first row of length equal to the row count. -/
theorem is_squarematrix_head (m : List (List ℚ)) (h : is_squarematrix m = true) :
    (m.head?.map List.length).getD 0 = m.length := by
  unfold is_squarematrix at h
  simp only [Bool.and_eq_true, beq_iff_eq] at h
  exact h.2

/-- Applying the weighted-flag finalization of parse_matrix does not touch
the directed flag. -/
theorem ifWeighted_directed (m : List (List ℚ)) (st : Graphe × Bool) :
    (if st.2 then make_weighted st.1 m else st.1).directed = st.1.directed := by
  by_cases h : st.2 = true
  · rw [if_pos h, make_weighted_directed]
  · rw [if_neg h]

/-- In modes 0 and 1, a successful parse_matrix sets the directed flag to
"already directed or the matrix is asymmetric". -/
theorem parse_matrix_directed (G : Graphe) (m : List (List ℚ)) (iswei : Bool)
    (mode : ℕ) (G' : Graphe) (hmode : mode < 2)
    (h : parse_matrix G m iswei mode = Except.ok G') :
    G'.directed = (G.directed || decide (m ≠ mtran m)) := by
  simp only [parse_matrix] at h
  by_cases hc : ((m.head?.map List.length).getD 0 ≠ m.length) ∨
      (0 < mode ∧ nodeCount G ≠ m.length)
  · rw [if_pos hc] at h
    exact absurd h (by simp)
  · rw [if_neg hc, if_pos hmode] at h
    injection h with h
    subst h
    rw [ifWeighted_directed, pmFold_directed]
    rfl

-- ------------------------------------------------------------------
-- Claim C1
-- ------------------------------------------------------------------

/-- C1, counterexample: for the graph built from the adjacency matrix
[[0,1,1,0],[1,0,0,1],[1,0,0,0],[0,1,0,0]] via the sole-matrix form of the
`graph` command, it is not the case that edge_count returns 4 and
is_directed returns false: the matrix has six non-zero entries, hence the
undirected graph has three edges, not four. -/
theorem claim_C1_cex :
    ¬((graphFromMatrix [[0,1,1,0],[1,0,0,1],[1,0,0,0],[0,1,0,0]]).map numberOfEdges
        = Except.ok 4 ∧
      (graphFromMatrix [[0,1,1,0],[1,0,0,1],[1,0,0,0],[0,1,0,0]]).map isDirectedCmd
        = Except.ok false) := by
  decide

/-- C1, amended: for the undirected graph built from the adjacency matrix
[[0,1,1,0],[1,0,0,1],[1,0,0,0],[0,1,0,0]] via the graph-from-square-matrix
constructor, the edge-count query returns 3 and the is_directed query
returns false. -/
theorem claim_C1 :
    (graphFromMatrix [[0,1,1,0],[1,0,0,1],[1,0,0,0],[0,1,0,0]]).map numberOfEdges
      = Except.ok 3 ∧
    (graphFromMatrix [[0,1,1,0],[1,0,0,1],[1,0,0,0],[0,1,0,0]]).map isDirectedCmd
      = Except.ok false := by
  decide

-- ------------------------------------------------------------------
-- Claim C2
-- ------------------------------------------------------------------

/-- C2, counterexample: on the construction path where the matrix is the
sole argument, an asymmetric matrix is not reported as an error: the
construction succeeds and silently yields a directed graph. -/
theorem claim_C2_cex :
    (graphFromMatrix [[0,1,0],[0,0,0],[0,0,0]]).map isDirectedCmd = Except.ok true ∧
    [[0,1,0],[0,0,0],[0,0,0]] ≠ mtran [[(0:ℚ),1,0],[0,0,0],[0,0,0]] := by
  decide

/-- C2, amended: on the multi-argument construction path graph(V, A) an
asymmetric matrix for an undirected graph is reported as the named
input-shape error (matrix not symmetric) and no graph is built; on the
construction path where the matrix is the sole argument, however, an
asymmetric square matrix is accepted and yields a directed graph. -/
theorem claim_C2 :
    (∀ (V : List ℤ) (m : List (List ℚ)), ckmatrix m = true → m ≠ mtran m →
      graphVA V m = Except.error GtErr.matrixNotSymmetric) ∧
    (∀ m : List (List ℚ), is_squarematrix m = true → 2 < m.length → m ≠ mtran m →
      ∃ G, graphFromMatrix m = Except.ok G ∧ is_directed G = true) := by
  constructor
  · intro V m hck hasym
    have hdir : is_directed (add_nodes emptyGraph V) = false := by
      rw [is_directed, add_nodes_directed]
      rfl
    simp only [graphVA, if_pos hck]
    rw [if_pos (by rw [hdir, decide_eq_true hasym]; rfl)]
  · intro m hsq hlen hasym
    unfold graphFromMatrix
    rw [if_pos (by rw [hsq, decide_eq_true hlen]; rfl)]
    have hne : ¬(((m.head?.map List.length).getD 0 ≠ m.length) ∨
        (0 < 0 ∧ nodeCount emptyGraph ≠ m.length)) := by
      push_neg
      refine ⟨?_, fun h => absurd h (by simp)⟩
      simpa using is_squarematrix_head m hsq
    cases hok : parse_matrix emptyGraph m false 0 with
    | error e =>
      exfalso
      simp only [parse_matrix] at hok
      rw [if_neg hne] at hok
      exact absurd hok (by simp)
    | ok G =>
      refine ⟨G, rfl, ?_⟩
      rw [is_directed, parse_matrix_directed emptyGraph m false 0 G (by norm_num) hok]
      simp [emptyGraph, hasym]

/-- C2, witness: the amended theorem applied at a concrete vertex list and
asymmetric matrix. -/
theorem claim_C2_witness :
    graphVA [5,6,7] [[0,1,0],[0,0,0],[0,0,0]] = Except.error GtErr.matrixNotSymmetric :=
  claim_C2.1 [5,6,7] [[0,1,0],[0,0,0],[0,0,0]] (by decide) (by decide)

-- ------------------------------------------------------------------
-- Claim C10
-- ------------------------------------------------------------------

/-- C10: is_graphic_sequence returns false — and in particular does not
raise an error, its giac implementation returns FAUX on these paths — as
soon as the list has a non-integer element, a negative element, an element
at least the list length, or an odd sum. -/
theorem claim_C10 (L : List GVal)
    (h : (∃ g ∈ L, gvalIsInt g = false) ∨
         (∃ z : ℤ, GVal.int z ∈ L ∧ z < 0) ∨
         (∃ z : ℤ, GVal.int z ∈ L ∧ (L.length : ℤ) ≤ z) ∨
         ¬(2 ∣ (L.map gvalToInt).sum)) :
    is_graphic_sequence L = false := by
  unfold is_graphic_sequence
  by_cases hany : L.any (fun g => !gvalIsInt g || decide (gvalToInt g < 0) ||
      decide ((L.length : ℤ) ≤ gvalToInt g)) = true
  · rw [if_pos hany]
  · rw [if_neg hany]
    rw [List.any_eq_true] at hany
    push_neg at hany
    have hsum : (sortD (L.map gvalToInt)).sum = (L.map gvalToInt).sum :=
      (List.perm_insertionSort _ (L.map gvalToInt)).sum_eq
    have hodd : ¬(2 ∣ (L.map gvalToInt).sum) := by
      rcases h with ⟨g, hg, hint⟩ | ⟨z, hz, hneg⟩ | ⟨z, hz, hge⟩ | hodd
      · exact absurd (by simp [hint]) (hany g hg)
      · exact absurd (by simp [gvalToInt, hneg]) (hany _ hz)
      · exact absurd (by simp [gvalToInt, hge]) (hany _ hz)
      · exact hodd
    rw [if_pos]
    rw [hsum]
    rwa [Int.dvd_iff_emod_eq_zero] at hodd

/-- C10, witness: the theorem applied to the singleton list [1], whose sum
is odd. -/
theorem claim_C10_witness : is_graphic_sequence [GVal.int 1] = false :=
  claim_C10 [GVal.int 1] (Or.inr (Or.inr (Or.inr (by decide))))

-- ------------------------------------------------------------------
-- Lemmas about rebuildOnPred, hasEdge and is_equal
-- ------------------------------------------------------------------

/-- Indexing a range-map list. -/
theorem get?_range_map {β : Type} (n : ℕ) (f : ℕ → β) (i : ℕ) :
    ((List.range n).map f).get? i = if i < n then some (f i) else none := by
  by_cases h : i < n
  · rw [if_pos h, List.get?_map, List.get?_range h]
    rfl
  · rw [if_neg h, List.get?_eq_none.mpr]
    simpa using le_of_not_lt h

/-- Reading every position of a list through get? reproduces a map over
the list. -/
theorem range_map_get? {α β : Type} (l : List α) (f : α → β) (d : β) :
    (List.range l.length).map (fun i => ((l.get? i).map f).getD d) = l.map f := by
  induction l with
  | nil => rfl
  | cons a l ih =>
    rw [List.length_cons, List.range_succ_eq_map, List.map_cons, List.map_map, List.map_cons]
    refine congrArg₂ List.cons rfl ?_
    rw [← ih]
    rfl

/-- Vertex count of a rebuilt graph. -/
theorem rebuildOnPred_nodeCount (G : Graphe) (f : ℕ → ℕ → Bool) (d w : Bool) :
    nodeCount (rebuildOnPred G f d w) = nodeCount G := by
  simp [rebuildOnPred, nodeCount]

/-- Labels of a rebuilt graph. -/
theorem rebuildOnPred_labels (G : Graphe) (f : ℕ → ℕ → Bool) (d w : Bool) :
    labels (rebuildOnPred G f d w) = labels G := by
  unfold labels rebuildOnPred
  simp only [List.map_map]
  have := range_map_get? G.nodes Vertex.label 0
  rw [← this]
  rfl

/-- Edge test on a rebuilt graph. -/
theorem rebuildOnPred_hasEdge (G : Graphe) (f : ℕ → ℕ → Bool) (d w : Bool) (i j : ℕ) :
    hasEdge (rebuildOnPred G f d w) i j = true ↔
      (i < nodeCount G ∧ j < nodeCount G ∧ f i j = true) := by
  unfold hasEdge nbrsAt rebuildOnPred
  simp only [get?_range_map]
  by_cases hi : i < nodeCount G
  · rw [if_pos hi]
    simp only [Option.map_some', Option.getD_some]
    rw [List.any_eq_true]
    constructor
    · rintro ⟨p, hp, hbeq⟩
      rw [List.mem_map] at hp
      obtain ⟨j', hj', rfl⟩ := hp
      rw [List.mem_filter, List.mem_range] at hj'
      have hj : j' = j := by simpa using hbeq
      subst hj
      exact ⟨hi, hj'.1, hj'.2⟩
    · rintro ⟨-, hj, hf⟩
      exact ⟨(j, 1), List.mem_map.mpr
        ⟨j, List.mem_filter.mpr ⟨List.mem_range.mpr hj, hf⟩, rfl⟩, by simp⟩
  · rw [if_neg hi]
    simp only [Option.map_none', Option.getD_none, List.any_nil]
    constructor
    · intro h
      cases h
    · rintro ⟨hi', -, -⟩
      exact absurd hi' hi

/-- An edge departs from an existing vertex. -/
theorem hasEdge_lt (G : Graphe) (i j : ℕ) (h : hasEdge G i j = true) :
    i < nodeCount G := by
  by_contra hc
  unfold hasEdge nbrsAt at h
  rw [List.get?_eq_none.mpr (le_of_not_lt hc)] at h
  simp at h

/-- On a graph whose adjacency entries are in range, an edge arrives at an
existing vertex. -/
theorem hasEdge_lt_of_inRange (G : Graphe) (i j : ℕ) (hR : inRange G = true)
    (h : hasEdge G i j = true) : j < nodeCount G := by
  unfold hasEdge at h
  rw [List.any_eq_true] at h
  obtain ⟨p, hp, hpj⟩ := h
  rw [beq_iff_eq] at hpj
  subst hpj
  unfold nbrsAt at hp
  cases hv : G.nodes.get? i with
  | none => rw [hv] at hp; simp at hp
  | some v =>
    rw [hv] at hp
    simp only [Option.map_some', Option.getD_some] at hp
    have hvmem : v ∈ G.nodes := List.get?_mem hv
    unfold inRange at hR
    rw [List.all_eq_true] at hR
    have h2 := hR v hvmem
    rw [List.all_eq_true] at h2
    simpa using h2 p hp

/-- On a graph without self-loops an edge has distinct endpoints. -/
theorem hasEdge_ne_of_noSelfLoop (G : Graphe) (i j : ℕ) (hS : noSelfLoop G = true)
    (h : hasEdge G i j = true) : j ≠ i := by
  rintro rfl
  have hi := hasEdge_lt G j j h
  unfold noSelfLoop at hS
  rw [List.all_eq_true] at hS
  have h2 := hS j (List.mem_range.mpr hi)
  simp [h] at h2

/-- Sufficient conditions for the graph-equality test to succeed. -/
theorem is_equal_of (G1 G2 : Graphe)
    (h1 : G1.directed = G2.directed) (h2 : G1.weighted = G2.weighted)
    (h3 : labels G1 = labels G2)
    (h4 : ∀ i j, i < nodeCount G1 → j < nodeCount G1 → hasEdge G1 i j = hasEdge G2 i j)
    (h5 : ∀ i j, i < nodeCount G1 → j < nodeCount G1 → G1.weighted = true →
        hasEdge G1 i j = true → weight G1 i j = weight G2 i j) :
    is_equal G1 G2 = true := by
  unfold is_equal
  simp only [Bool.and_eq_true, beq_iff_eq, List.all_eq_true, List.mem_range]
  refine ⟨⟨⟨h1, h2⟩, h3⟩, fun i hi j hj => ⟨by rw [h4 i j hi hj], ?_⟩⟩
  by_cases hw : (G1.weighted && hasEdge G1 i j) = true
  · rw [Bool.and_eq_true] at hw
    simp [h5 i j hi hj hw.1 hw.2]
  · have hb : (G1.weighted && hasEdge G1 i j) = false := by
      simpa using hw
    simp [hb]

-- ------------------------------------------------------------------
-- Claim C7
-- ------------------------------------------------------------------

/-- Edge test on an underlying graph. -/
theorem hasEdge_underlying (G : Graphe) (i j : ℕ) :
    hasEdge (underlying G) i j = true ↔
      (i < nodeCount G ∧ j < nodeCount G ∧
        (hasEdge G i j = true ∨ hasEdge G j i = true)) := by
  unfold underlying
  rw [rebuildOnPred_hasEdge]
  simp [Bool.or_eq_true]

/-- Edge test on a complement graph. -/
theorem hasEdge_complement (G : Graphe) (i j : ℕ) :
    hasEdge (complement G) i j = true ↔
      (i < nodeCount G ∧ j < nodeCount G ∧ j ≠ i ∧ hasEdge G i j = false) := by
  unfold complement
  rw [rebuildOnPred_hasEdge]
  simp [Bool.and_eq_true, Bool.not_eq_true']

/-- C7: applying underlying_graph twice gives the same result, up to the
graph-equality test of graph_equal, as applying it once; and on a simple
graph, applying the complement operation twice yields a graph equal to the
original. -/
theorem claim_C7 (G : Graphe) :
    is_equal (underlying (underlying G)) (underlying G) = true ∧
    (simpleGraph G = true → is_equal (complement (complement G)) G = true) := by
  have hun : nodeCount (underlying G) = nodeCount G := rebuildOnPred_nodeCount _ _ _ _
  have huun : nodeCount (underlying (underlying G)) = nodeCount G := by
    rw [underlying, rebuildOnPred_nodeCount, hun]
  constructor
  · apply is_equal_of
    · rfl
    · rfl
    · exact rebuildOnPred_labels (underlying G) _ false false
    · intro i j hi hj
      rw [huun] at hi hj
      rw [Bool.eq_iff_iff]
      simp only [hasEdge_underlying, hun]
      tauto
    · intro i j _ _ hw
      exact absurd hw (by simp [underlying, rebuildOnPred])
  · intro hs
    simp only [simpleGraph, Bool.and_eq_true, Bool.not_eq_true'] at hs
    obtain ⟨⟨⟨⟨hdir, hwei⟩, hloop⟩, hrange⟩, -⟩ := hs
    have hcn : nodeCount (complement G) = nodeCount G := rebuildOnPred_nodeCount _ _ _ _
    have hccn : nodeCount (complement (complement G)) = nodeCount G := by
      rw [complement, rebuildOnPred_nodeCount, hcn]
    apply is_equal_of
    · show (complement G).directed = G.directed
      rfl
    · show false = G.weighted
      rw [hwei]
    · rw [complement, rebuildOnPred_labels,
        ← rebuildOnPred_labels G (fun i j => decide (j ≠ i) && !(hasEdge G i j))
          G.directed false]
      rfl
    · intro i j hi hj
      rw [hccn] at hi hj
      rw [Bool.eq_iff_iff]
      rw [hasEdge_complement (complement G), hcn]
      constructor
      · rintro ⟨-, -, hne, hcc⟩
        by_contra hG
        rw [Bool.not_eq_true] at hG
        rw [Bool.eq_false_iff, Ne, hasEdge_complement] at hcc
        exact hcc ⟨hi, hj, hne, hG⟩
      · intro hG
        refine ⟨hi, hj, hasEdge_ne_of_noSelfLoop G i j hloop hG, ?_⟩
        rw [Bool.eq_false_iff, Ne, hasEdge_complement]
        rintro ⟨-, -, -, hfalse⟩
        rw [hG] at hfalse
        cases hfalse
    · intro i j _ _ hw
      exact absurd hw (by simp [complement, rebuildOnPred, rebuildOnPred_nodeCount])

/-- C7, witness: the theorem applied to the triangle graph. -/
theorem claim_C7_witness :
    simpleGraph triangleGraph = true ∧
    is_equal (underlying (underlying triangleGraph)) (underlying triangleGraph) = true ∧
    is_equal (complement (complement triangleGraph)) triangleGraph = true :=
  ⟨by decide, (claim_C7 triangleGraph).1, (claim_C7 triangleGraph).2 (by decide)⟩

-- ------------------------------------------------------------------
-- Claim C5
-- ------------------------------------------------------------------

/-- C5, counterexample: the graph on three isolated vertices has at least
3 vertices and an empty cut-vertex list, yet is_biconnected returns false
(the graph is disconnected), so the second direction of the claim fails
without a connectedness assumption. -/
theorem claim_C5_cex :
    3 ≤ nodeCount threeIsolated ∧ find_cut_vertices threeIsolated = [] ∧
    is_biconnected threeIsolated = false := by
  refine ⟨by decide, by decide, by decide⟩

/-- C5, amended: is_biconnected implies an empty cut-vertex list; and for a
connected graph with at least 3 vertices, an empty cut-vertex list implies
is_biconnected. -/
theorem claim_C5 (G : Graphe) :
    (is_biconnected G = true → find_cut_vertices G = []) ∧
    (3 ≤ nodeCount G → is_connected G = true → find_cut_vertices G = [] →
      is_biconnected G = true) := by
  constructor
  · intro h
    unfold is_biconnected at h
    rw [Bool.and_eq_true] at h
    exact List.isEmpty_iff.mp h.2
  · intro _ hc he
    unfold is_biconnected
    rw [hc, he]
    rfl

/-- C5, witness: the theorem applied to the triangle, which is biconnected
and hence has no cut vertices. -/
theorem claim_C5_witness : find_cut_vertices triangleGraph = [] :=
  (claim_C5 triangleGraph).1 (by decide)

-- ------------------------------------------------------------------
-- Claim C8
-- ------------------------------------------------------------------

/-- Mapping over a list in the Except monad reports the error err when some
element fails and every element either succeeds or fails with err. -/
theorem mapM_error_first {α β : Type} (f : α → Except GtErr β) (err : GtErr)
    (l : List α)
    (hall : ∀ a ∈ l, f a = Except.error err ∨ ∃ b, f a = Except.ok b)
    (hex : ∃ a ∈ l, f a = Except.error err) :
    l.mapM f = Except.error err := by
  induction l with
  | nil =>
    obtain ⟨a, ha, -⟩ := hex
    cases ha
  | cons x xs ih =>
    rw [List.mapM_cons]
    rcases hall x (List.mem_cons_self x xs) with hx | ⟨b, hb⟩
    · rw [hx]
      rfl
    · rw [hb]
      obtain ⟨a, ha, hae⟩ := hex
      rcases List.mem_cons.mp ha with rfl | hmem
      · rw [hae] at hb
        cases hb
      · have hxs := ih (fun a h => hall a (List.mem_cons_of_mem _ h)) ⟨a, hmem, hae⟩
        cases hcs : xs.mapM f with
        | error e2 =>
          rw [hcs] at hxs
          injection hxs with hxs
          rw [hxs]
          rfl
        | ok bs =>
          rw [hcs] at hxs
          cases hxs

/-- C8: when the tree style is explicitly requested and some component
fails the tree test, _draw_graph reports the not-a-tree error and produces
no layout; when the planar style is requested and some component fails the
planar layout, it reports the not-planar error and produces no layout. -/
theorem claim_C8 (method : DrawStyle) (comps : List CompInfo) :
    (method = DrawStyle.tree → (∃ c ∈ comps, c.treeTest = false) →
      draw_graph method comps = Except.error GtErr.notATree) ∧
    (method = DrawStyle.planar → (∃ c ∈ comps, c.planarTest = false) →
      draw_graph method comps = Except.error GtErr.notPlanar) := by
  constructor
  · rintro rfl ⟨c, hc, hct⟩
    unfold draw_graph
    apply mapM_error_first
    · intro a _
      by_cases ht : a.treeTest = true
      · exact Or.inr ⟨DrawStyle.tree, by simp [drawComponent, ht]⟩
      · rw [Bool.not_eq_true] at ht
        exact Or.inl (by simp [drawComponent, ht])
    · exact ⟨c, hc, by simp [drawComponent, hct]⟩
  · rintro rfl ⟨c, hc, hcp⟩
    unfold draw_graph
    apply mapM_error_first
    · intro a _
      by_cases hp : a.planarTest = true
      · exact Or.inr ⟨DrawStyle.planar, by simp [drawComponent, hp]⟩
      · rw [Bool.not_eq_true] at hp
        exact Or.inl (by simp [drawComponent, hp])
    · exact ⟨c, hc, by simp [drawComponent, hcp]⟩

/-- C8, witness: the theorem applied to the tree style on a single
non-tree component. -/
theorem claim_C8_witness :
    draw_graph DrawStyle.tree [⟨false, true, DrawStyle.spring⟩]
      = Except.error GtErr.notATree :=
  (claim_C8 DrawStyle.tree [⟨false, true, DrawStyle.spring⟩]).1 rfl
    ⟨⟨false, true, DrawStyle.spring⟩, List.mem_singleton.mpr rfl, rfl⟩

-- ------------------------------------------------------------------
-- Claim C4
-- ------------------------------------------------------------------

/-- The endpoint list has twice as many entries as the pair list. -/
theorem matchedVertices_length (m : List (ℕ × ℕ)) :
    (matchedVertices m).length = 2 * m.length := by
  induction m with
  | nil => rfl
  | cons p m ih =>
    show ([p.1, p.2] ++ matchedVertices m).length = 2 * (p :: m).length
    rw [List.length_append, ih, List.length_cons]
    show 2 + 2 * m.length = 2 * (m.length + 1)
    omega

/-- Membership in the endpoint list. -/
theorem mem_matchedVertices (m : List (ℕ × ℕ)) (v : ℕ) :
    v ∈ matchedVertices m ↔ ∃ p ∈ m, v = p.1 ∨ v = p.2 := by
  simp [matchedVertices, List.mem_flatMap]

/-- A duplicate-free list of naturals below n has at most n entries. -/
theorem nodup_length_le (l : List ℕ) (n : ℕ) (hnd : l.Nodup)
    (hlt : ∀ v ∈ l, v < n) : l.length ≤ n := by
  have h1 : l.toFinset.card = l.length := List.toFinset_card_of_nodup hnd
  have h2 : l.toFinset ⊆ Finset.range n := by
    intro v hv
    rw [List.mem_toFinset] at hv
    exact Finset.mem_range.mpr (hlt v hv)
  have h3 := Finset.card_le_card h2
  rw [h1, Finset.card_range] at h3
  exact h3

/-- Edges of the undirected edge list join vertex indices. -/
theorem mem_undirEdges (G : Graphe) (p : ℕ × ℕ) (h : p ∈ undirEdges G) :
    p.1 < nodeCount G ∧ p.2 < nodeCount G := by
  unfold undirEdges at h
  rw [List.mem_flatMap] at h
  obtain ⟨i, hi, hmem⟩ := h
  rw [List.mem_map] at hmem
  obtain ⟨j, hj, rfl⟩ := hmem
  rw [List.mem_filter, List.mem_range] at hj
  exact ⟨List.mem_range.mp hi, hj.1⟩

/-- The fold that keeps the longer list returns the seed or a member. -/
theorem foldl_longest_mem (l : List (List (ℕ × ℕ))) (acc : List (ℕ × ℕ)) :
    l.foldl (fun best m => if best.length < m.length then m else best) acc = acc ∨
    l.foldl (fun best m => if best.length < m.length then m else best) acc ∈ l := by
  induction l generalizing acc with
  | nil => exact Or.inl rfl
  | cons x xs ih =>
    rw [List.foldl_cons]
    by_cases h : acc.length < x.length
    · rw [if_pos h]
      rcases ih x with h2 | h2
      · exact Or.inr (by rw [h2]; exact List.mem_cons_self x xs)
      · exact Or.inr (List.mem_cons_of_mem _ h2)
    · rw [if_neg h]
      rcases ih acc with h2 | h2
      · exact Or.inl h2
      · exact Or.inr (List.mem_cons_of_mem _ h2)

/-- Duplicate-free endpoints yield pairwise disjoint pairs. -/
theorem nodup_matched_pairwise (m : List (ℕ × ℕ))
    (h : (matchedVertices m).Nodup) :
    List.Pairwise (fun p q => p.1 ≠ q.1 ∧ p.1 ≠ q.2 ∧ p.2 ≠ q.1 ∧ p.2 ≠ q.2) m := by
  induction m with
  | nil => exact List.Pairwise.nil
  | cons p m ih =>
    rw [matchedVertices, List.flatMap_cons] at h
    rw [List.nodup_append] at h
    obtain ⟨h1, h2, hdisj⟩ := h
    refine List.Pairwise.cons ?_ (ih h2)
    intro q hq
    have hq1 : q.1 ∈ matchedVertices m := (mem_matchedVertices m q.1).mpr ⟨q, hq, Or.inl rfl⟩
    have hq2 : q.2 ∈ matchedVertices m := (mem_matchedVertices m q.2).mpr ⟨q, hq, Or.inr rfl⟩
    have hp1 : p.1 ∈ [p.1, p.2] := by simp
    have hp2 : p.2 ∈ [p.1, p.2] := by simp
    exact ⟨fun e => hdisj hp1 (by rw [e]; exact hq1),
           fun e => hdisj hp1 (by rw [e]; exact hq2),
           fun e => hdisj hp2 (by rw [e]; exact hq1),
           fun e => hdisj hp2 (by rw [e]; exact hq2)⟩

/-- C4: on an undirected unweighted graph, the maximum-matching command
succeeds, the number of returned pairs is at most half the vertex count,
and no vertex appears in two matched pairs. -/
theorem claim_C4 (G : Graphe) (hd : is_directed G = false)
    (hw : is_weighted G = false) :
    maximumMatchingCmd G =
      Except.ok ((maximize_matching G).map (fun p => (labelAt G p.1, labelAt G p.2))) ∧
    (maximize_matching G).length ≤ nodeCount G / 2 ∧
    (matchedVertices (maximize_matching G)).Nodup ∧
    List.Pairwise (fun p q => p.1 ≠ q.1 ∧ p.1 ≠ q.2 ∧ p.2 ≠ q.1 ∧ p.2 ≠ q.2)
      (maximize_matching G) := by
  have key : (matchedVertices (maximize_matching G)).Nodup ∧
      ∀ p ∈ maximize_matching G, p.1 < nodeCount G ∧ p.2 < nodeCount G := by
    rcases foldl_longest_mem ((undirEdges G).sublists.filter isMatchingList) [] with h | h
    · rw [maximize_matching, h]
      exact ⟨List.nodup_nil, fun p hp => absurd hp (List.not_mem_nil p)⟩
    · rw [List.mem_filter] at h
      have hsub := (List.mem_sublists.mp h.1).subset
      have hnd : (matchedVertices (maximize_matching G)).Nodup :=
        of_decide_eq_true h.2
      exact ⟨hnd, fun p hp => mem_undirEdges G p (hsub hp)⟩
  refine ⟨?_, ?_, key.1, nodup_matched_pairwise _ key.1⟩
  · unfold maximumMatchingCmd
    rw [hd]
    rfl
  · have hlen : (matchedVertices (maximize_matching G)).length ≤ nodeCount G := by
      refine nodup_length_le _ _ key.1 ?_
      intro v hv
      obtain ⟨p, hp, hvp⟩ := (mem_matchedVertices _ v).mp hv
      rcases hvp with rfl | rfl
      · exact (key.2 p hp).1
      · exact (key.2 p hp).2
    rw [matchedVertices_length] at hlen
    omega

/-- C4, witness: the theorem applied to the triangle graph. -/
theorem claim_C4_witness :
    (maximize_matching triangleGraph).length ≤ nodeCount triangleGraph / 2 ∧
    (matchedVertices (maximize_matching triangleGraph)).Nodup :=
  ⟨(claim_C4 triangleGraph rfl rfl).2.1, (claim_C4 triangleGraph rfl rfl).2.2.1⟩

-- ------------------------------------------------------------------
-- Claim C9
-- ------------------------------------------------------------------

/-- Properties extracted from the cycle test. -/
theorem isCycleList_props (G : Graphe) (l : List ℕ) (h : isCycleList G l = true) :
    l.Nodup ∧ 3 ≤ l.length ∧ ∀ v ∈ l, v < nodeCount G := by
  match l with
  | [] => cases h
  | v :: rest =>
    rw [isCycleList] at h
    simp only [Bool.and_eq_true, decide_eq_true_eq, List.all_eq_true] at h
    exact ⟨h.1.1.1.1, h.1.1.1.2, fun u hu => h.1.1.2 u hu⟩

/-- Completeness of the duplicate-free list enumeration. -/
theorem mem_nodupListsUpTo (n : ℕ) (k : ℕ) (l : List ℕ) (hnd : l.Nodup)
    (hlt : ∀ v ∈ l, v < n) (hlen : l.length ≤ k) :
    l ∈ nodupListsUpTo n k := by
  induction k generalizing l with
  | zero =>
    rw [Nat.le_zero, List.length_eq_zero] at hlen
    subst hlen
    simp [nodupListsUpTo]
  | succ k ih =>
    rw [nodupListsUpTo, List.mem_append]
    cases l with
    | nil =>
      exact Or.inl (ih [] hnd hlt (by simp))
    | cons v l' =>
      right
      rw [List.mem_flatMap]
      rw [List.nodup_cons] at hnd
      refine ⟨l', ih l' hnd.2 (fun u hu => hlt u (List.mem_cons_of_mem _ hu))
        (by simpa using hlen), ?_⟩
      rw [List.mem_map]
      refine ⟨v, List.mem_filter.mpr ⟨List.mem_range.mpr (hlt v (List.mem_cons_self _ _)), ?_⟩,
        rfl⟩
      simpa using hnd.1

/-- A fold by min stays above a common lower bound. -/
theorem foldl_min_ge (c : ℤ) (xs : List ℤ) (acc : ℤ) (hacc : c ≤ acc)
    (hxs : ∀ x ∈ xs, c ≤ x) : c ≤ xs.foldl min acc := by
  induction xs generalizing acc with
  | nil => exact hacc
  | cons x xs ih =>
    rw [List.foldl_cons]
    exact ih _ (le_min hacc (hxs x (List.mem_cons_self _ _)))
      (fun y hy => hxs y (List.mem_cons_of_mem _ hy))

/-- Every cycle candidate passes the cycle test. -/
theorem mem_cycleCandidates (G : Graphe) (odd : Bool) (l : List ℕ)
    (h : l ∈ cycleCandidates G odd) :
    isCycleList G l = true ∧ (odd = true → l.length % 2 = 1) := by
  rw [cycleCandidates, List.mem_filter] at h
  have h2 := h.2
  rw [Bool.and_eq_true] at h2
  refine ⟨h2.1, fun ho => ?_⟩
  have := h2.2
  rw [ho] at this
  simpa using this

/-- Value of the internal girth when no cycle candidate exists. -/
theorem girthInternal_nil (G : Graphe) (odd : Bool)
    (hcs : cycleCandidates G odd = []) : girthInternal G odd = -1 := by
  unfold girthInternal
  rw [hcs]
  rfl

/-- Value of the internal girth on a non-empty candidate list. -/
theorem girthInternal_cons (G : Graphe) (odd : Bool) (c : List ℕ) (cs : List (List ℕ))
    (hcs : cycleCandidates G odd = c :: cs) :
    girthInternal G odd = (cs.map (fun l => (l.length : ℤ))).foldl min (c.length : ℤ) := by
  unfold girthInternal
  rw [hcs, List.map_cons]

/-- On an undirected unweighted graph the girth command returns plus
infinity exactly when there is no (odd) cycle candidate. -/
theorem girthCmd_top_iff (G : Graphe) (odd : Bool)
    (hd : is_directed G = false) (hw : is_weighted G = false) :
    girthCmd G odd = Except.ok (⊤ : WithTop ℕ) ↔ cycleCandidates G odd = [] := by
  unfold girthCmd
  rw [hd, hw]
  simp only [Bool.false_eq_true, if_false]
  cases hcs : cycleCandidates G odd with
  | nil =>
    rw [girthInternal_nil G odd hcs]
    simp
  | cons c cs =>
    rw [girthInternal_cons G odd c cs hcs]
    have hge : (3 : ℤ) ≤ (cs.map (fun l => (l.length : ℤ))).foldl min (c.length : ℤ) := by
      refine foldl_min_ge 3 _ _ ?_ ?_
      · have := (isCycleList_props G c
          (mem_cycleCandidates G odd c (hcs ▸ List.mem_cons_self _ _)).1).2.1
        exact_mod_cast this
      · intro x hx
        rw [List.mem_map] at hx
        obtain ⟨l, hl, rfl⟩ := hx
        have := (isCycleList_props G l
          (mem_cycleCandidates G odd l (hcs ▸ List.mem_cons_of_mem _ hl)).1).2.1
        exact_mod_cast this
    rw [if_neg (by omega)]
    constructor
    · intro h
      exfalso
      injection h with h
      exact absurd h (WithTop.coe_ne_top)
    · intro h
      cases h

/-- C9: on an undirected unweighted graph, girth returns plus infinity
exactly when the graph contains no cycle, and odd_girth returns plus
infinity exactly when it contains no odd cycle; the internal negative
sentinel is never returned. -/
theorem claim_C9 (G : Graphe) (hd : is_directed G = false)
    (hw : is_weighted G = false) :
    (girthCmd G false = Except.ok (⊤ : WithTop ℕ) ↔
      ¬∃ l, isCycleList G l = true) ∧
    (girthCmd G true = Except.ok (⊤ : WithTop ℕ) ↔
      ¬∃ l, isCycleList G l = true ∧ l.length % 2 = 1) := by
  have hcand : ∀ (odd : Bool) (l : List ℕ), isCycleList G l = true →
      (odd = true → l.length % 2 = 1) → l ∈ cycleCandidates G odd := by
    intro odd l hl hodd
    have props := isCycleList_props G l hl
    rw [cycleCandidates, List.mem_filter]
    refine ⟨mem_nodupListsUpTo _ _ l props.1 props.2.2
      (nodup_length_le l _ props.1 props.2.2), ?_⟩
    rw [Bool.and_eq_true]
    refine ⟨hl, ?_⟩
    cases odd with
    | false => rfl
    | true => simp [hodd rfl]
  constructor
  · rw [girthCmd_top_iff G false hd hw]
    constructor
    · rintro hempty ⟨l, hl⟩
      have := hcand false l hl (by intro h; cases h)
      rw [hempty] at this
      cases this
    · intro hnone
      cases hcs : cycleCandidates G false with
      | nil => rfl
      | cons c cs =>
        exact absurd ⟨c, (mem_cycleCandidates G false c
          (hcs ▸ List.mem_cons_self _ _)).1⟩ hnone
  · rw [girthCmd_top_iff G true hd hw]
    constructor
    · rintro hempty ⟨l, hl, hlo⟩
      have := hcand true l hl (fun _ => hlo)
      rw [hempty] at this
      cases this
    · intro hnone
      cases hcs : cycleCandidates G true with
      | nil => rfl
      | cons c cs =>
        have hc := mem_cycleCandidates G true c (hcs ▸ List.mem_cons_self _ _)
        exact absurd ⟨c, hc.1, hc.2 rfl⟩ hnone

/-- A graph with no stored adjacency admits no cycle. -/
theorem no_cycle_of_edgeless (G : Graphe) (hE : ∀ a b, hasEdge G a b = false)
    (l : List ℕ) (h : isCycleList G l = true) : False := by
  match l with
  | [] => cases h
  | [v] =>
    rw [isCycleList] at h
    simp at h
  | v :: w :: rest =>
    rw [isCycleList] at h
    simp only [Bool.and_eq_true] at h
    have hchain := h.1.2
    rw [chainOk, Bool.and_eq_true] at hchain
    rw [hE v w] at hchain
    cases hchain.1

/-- The three-isolated-vertices graph stores no adjacency at all. -/
theorem threeIsolated_edgeless : ∀ a b, hasEdge threeIsolated a b = false := by
  intro a b
  match a with
  | 0 => rfl
  | 1 => rfl
  | 2 => rfl
  | (n+3) => rfl

/-- C9, witness: the theorem applied to the edgeless graph on three
vertices, which contains no cycle. -/
theorem claim_C9_witness :
    girthCmd threeIsolated false = Except.ok (⊤ : WithTop ℕ) ∧
    girthCmd threeIsolated true = Except.ok (⊤ : WithTop ℕ) :=
  ⟨((claim_C9 threeIsolated rfl rfl).1).mpr
      (fun ⟨l, hl⟩ => no_cycle_of_edgeless threeIsolated threeIsolated_edgeless l hl),
   ((claim_C9 threeIsolated rfl rfl).2).mpr
      (fun ⟨l, hl, _⟩ => no_cycle_of_edgeless threeIsolated threeIsolated_edgeless l hl)⟩

-- ------------------------------------------------------------------
-- Claim C3: lemmas on the Dijkstra loop
-- ------------------------------------------------------------------

/-- Membership in the candidate list. -/
theorem mem_dijkCandidates {n : ℕ} (st : DijkState n) (v : Fin n) :
    v ∈ dijkCandidates st ↔ v ∉ st.visited ∧ st.dist v ≠ ⊤ := by
  unfold dijkCandidates
  rw [List.mem_filter]
  simp [List.mem_finRange]

/-- When no candidate exists, every unsettled vertex is unreached. -/
theorem pickMin_none {n : ℕ} (st : DijkState n) (h : pickMin st = none) :
    ∀ v, v ∉ st.visited → st.dist v = ⊤ := by
  intro v hv
  by_contra hne
  have hmem := (mem_dijkCandidates st v).mpr ⟨hv, hne⟩
  unfold pickMin at h
  cases hcs : dijkCandidates st with
  | nil =>
    rw [hcs] at hmem
    cases hmem
  | cons c cs =>
    rw [hcs] at h
    simp at h

/-- The inner fold of pickMin returns an element of least distance. -/
theorem foldl_pick_le {n : ℕ} (st : DijkState n) (cs : List (Fin n)) (c : Fin n) :
    st.dist (cs.foldl (fun best v => if st.dist v < st.dist best then v else best) c)
      ≤ st.dist c ∧
    ∀ v ∈ cs,
      st.dist (cs.foldl (fun best v => if st.dist v < st.dist best then v else best) c)
        ≤ st.dist v := by
  induction cs generalizing c with
  | nil => exact ⟨le_refl _, fun v hv => absurd hv (List.not_mem_nil v)⟩
  | cons x xs ih =>
    rw [List.foldl_cons]
    by_cases h : st.dist x < st.dist c
    · rw [if_pos h]
      refine ⟨le_trans (ih x).1 (le_of_lt h), ?_⟩
      intro v hv
      rcases List.mem_cons.mp hv with rfl | hvm
      · exact (ih v).1
      · exact (ih x).2 v hvm
    · rw [if_neg h]
      refine ⟨(ih c).1, ?_⟩
      intro v hv
      rcases List.mem_cons.mp hv with rfl | hvm
      · exact le_trans (ih c).1 (le_of_not_lt h)
      · exact (ih c).2 v hvm

/-- The inner fold of pickMin returns the seed or a list member. -/
theorem foldl_pick_mem {n : ℕ} (st : DijkState n) (cs : List (Fin n)) (c : Fin n) :
    cs.foldl (fun best v => if st.dist v < st.dist best then v else best) c = c ∨
    cs.foldl (fun best v => if st.dist v < st.dist best then v else best) c ∈ cs := by
  induction cs generalizing c with
  | nil => exact Or.inl rfl
  | cons x xs ih =>
    rw [List.foldl_cons]
    by_cases h : st.dist x < st.dist c
    · rw [if_pos h]
      rcases ih x with h2 | h2
      · exact Or.inr (by rw [h2]; exact List.mem_cons_self x xs)
      · exact Or.inr (List.mem_cons_of_mem _ h2)
    · rw [if_neg h]
      rcases ih c with h2 | h2
      · exact Or.inl h2
      · exact Or.inr (List.mem_cons_of_mem _ h2)

/-- A successful pickMin returns an unsettled reached vertex of least
tentative distance. -/
theorem pickMin_some {n : ℕ} (st : DijkState n) (u : Fin n) (h : pickMin st = some u) :
    u ∉ st.visited ∧ st.dist u ≠ ⊤ ∧ ∀ v, v ∉ st.visited → st.dist u ≤ st.dist v := by
  unfold pickMin at h
  cases hcs : dijkCandidates st with
  | nil =>
    rw [hcs] at h
    cases h
  | cons c cs =>
    rw [hcs] at h
    have hu : cs.foldl (fun best v => if st.dist v < st.dist best then v else best) c
        = u := by
      injection h
    have humem : u ∈ dijkCandidates st := by
      rw [hcs]
      rcases foldl_pick_mem st cs c with he | he
      · rw [hu] at he
        rw [← he]
        exact List.mem_cons_self _ _
      · rw [hu] at he
        exact List.mem_cons_of_mem _ he
    have hprops := (mem_dijkCandidates st u).mp humem
    refine ⟨hprops.1, hprops.2, ?_⟩
    intro v hv
    by_cases hvt : st.dist v = ⊤
    · rw [hvt]
      exact le_top
    · have hvmem := (mem_dijkCandidates st v).mpr ⟨hv, hvt⟩
      rw [hcs] at hvmem
      rcases List.mem_cons.mp hvmem with rfl | hvm
      · rw [← hu]
        exact (foldl_pick_le st cs v).1
      · rw [← hu]
        exact (foldl_pick_le st cs c).2 v hvm

/-- Cost of a walk extended by one edge at its end. -/
theorem walkCost_append_last {n : ℕ} (ew : Fin n → Fin n → WithTop ℚ)
    (l : List (Fin n)) (a v : Fin n) (hne : l ≠ []) (hl : l.getLast? = some a) :
    walkCost ew (l ++ [v]) = walkCost ew l + ew a v := by
  induction l with
  | nil => cases hne rfl
  | cons x l ih =>
    cases l with
    | nil =>
      simp only [List.getLast?_singleton, Option.some.injEq] at hl
      subst hl
      show ew x v + walkCost ew [v] = walkCost ew [x] + ew x v
      show ew x v + 0 = 0 + ew x v
      rw [add_zero, zero_add]
    | cons y l' =>
      have hl' : (y :: l').getLast? = some a := by rwa [List.getLast?_cons_cons] at hl
      show ew x y + walkCost ew ((y :: l') ++ [v]) =
        (ew x y + walkCost ew (y :: l')) + ew a v
      rw [ih (List.cons_ne_nil y l') hl', add_assoc]

/-- Extending a walk to u by the vertex v yields a walk to v. -/
theorem walkFrom_append {n : ℕ} (s u v : Fin n) (l : List (Fin n))
    (h : WalkFrom s u l) (hne : l ≠ []) : WalkFrom s v (l ++ [v]) := by
  obtain ⟨h1, h2⟩ := h
  refine ⟨?_, List.getLast?_concat l⟩
  cases l with
  | nil => cases hne rfl
  | cons x l' =>
    rw [List.cons_append, List.head?_cons]
    rwa [List.head?_cons] at h1

/-- Relaxation from the minimal unsettled vertex preserves the invariant. -/
theorem dijkInv_relax {n : ℕ} (ew : Fin n → Fin n → WithTop ℚ) (s : Fin n)
    (st : DijkState n) (hinv : DijkInv ew s st) (hnn : ∀ u v, 0 ≤ ew u v)
    (u : Fin n) (hu : u ∉ st.visited) (hdu : st.dist u ≠ ⊤)
    (hmin : ∀ v, v ∉ st.visited → st.dist u ≤ st.dist v) :
    DijkInv ew s (relax ew u st) := by
  have hd' : ∀ v, (relax ew u st).dist v =
      if st.dist u + ew u v < st.dist v then st.dist u + ew u v else st.dist v :=
    fun v => rfl
  have hdec : ∀ v, (relax ew u st).dist v ≤ st.dist v := by
    intro v
    rw [hd']
    split
    · exact le_of_lt (by assumption)
    · exact le_refl _
  have hub : ∀ v, (relax ew u st).dist v ≤ st.dist u + ew u v := by
    intro v
    rw [hd']
    split
    · exact le_refl _
    · exact le_of_not_lt (by assumption)
  have hfrozen : ∀ w, w ∈ st.visited ∨ w = u → (relax ew u st).dist w = st.dist w := by
    intro w hw
    have hge : st.dist w ≤ st.dist u + ew u w := by
      rcases hw with hw | rfl
      · exact le_trans (hinv.mono w hw u hu) (le_add_of_nonneg_right (hnn u w))
      · exact le_add_of_nonneg_right (hnn _ _)
    rw [hd', if_neg (not_lt.mpr hge)]
  have hvis : (relax ew u st).visited = insert u st.visited := rfl
  constructor
  · intro w hw v
    rw [hvis, Finset.mem_insert] at hw
    rcases hw with rfl | hw
    · rw [hfrozen w (Or.inr rfl)]
      exact hub v
    · rw [hfrozen w (Or.inl hw)]
      exact le_trans (hdec v) (hinv.relaxed w hw v)
  · intro w hw v hv
    rw [hvis, Finset.mem_insert] at hw
    rw [hvis, Finset.mem_insert] at hv
    push_neg at hv
    rcases hw with rfl | hw
    · rw [hfrozen w (Or.inr rfl)]
      rw [hd']
      split
      · exact le_add_of_nonneg_right (hnn w v)
      · exact hmin v hv.2
    · rw [hfrozen w (Or.inl hw)]
      rw [hd']
      split
      · exact le_trans (hinv.mono w hw u hu) (le_add_of_nonneg_right (hnn u v))
      · exact hinv.mono w hw v hv.2
  · exact le_trans (hdec s) hinv.src
  · intro v hv
    rw [hd'] at hv ⊢
    by_cases hcond : st.dist u + ew u v < st.dist v
    · rw [if_pos hcond] at hv ⊢
      obtain ⟨l, hwalk, hcost⟩ := hinv.reach u hdu
      have hlne : l ≠ [] := by
        intro he
        rw [he] at hwalk
        cases hwalk.1
      refine ⟨l ++ [v], walkFrom_append s u v l hwalk hlne, ?_⟩
      rw [walkCost_append_last ew l u v hlne hwalk.2, hcost]
    · rw [if_neg hcond] at hv ⊢
      exact hinv.reach v hv

/-- The initial state satisfies the invariant. -/
theorem dijkInv_init {n : ℕ} (ew : Fin n → Fin n → WithTop ℚ) (s : Fin n) :
    DijkInv ew s (dijkstraInit s) := by
  constructor
  · intro u hu
    exact absurd hu (Finset.not_mem_empty u)
  · intro u hu
    exact absurd hu (Finset.not_mem_empty u)
  · show (if s = s then (0 : WithTop ℚ) else ⊤) ≤ 0
    rw [if_pos rfl]
  · intro v hv
    have hvs : v = s := by
      by_contra hne
      apply hv
      show (if v = s then (0 : WithTop ℚ) else ⊤) = ⊤
      rw [if_neg hne]
    subst hvs
    refine ⟨[v], ⟨rfl, rfl⟩, ?_⟩
    show (0 : WithTop ℚ) = (if v = v then (0 : WithTop ℚ) else ⊤)
    rw [if_pos rfl]

/-- The loop preserves the invariant. -/
theorem dijkstraLoop_inv {n : ℕ} (ew : Fin n → Fin n → WithTop ℚ) (s : Fin n)
    (hnn : ∀ u v, 0 ≤ ew u v) (fuel : ℕ) (st : DijkState n)
    (hinv : DijkInv ew s st) : DijkInv ew s (dijkstraLoop ew fuel st) := by
  induction fuel generalizing st with
  | zero => exact hinv
  | succ fuel ih =>
    rw [dijkstraLoop]
    cases hp : pickMin st with
    | none => exact hinv
    | some u =>
      obtain ⟨hu, hdu, hmin⟩ := pickMin_some st u hp
      exact ih _ (dijkInv_relax ew s st hinv hnn u hu hdu hmin)

/-- With enough fuel, every vertex left unsettled by the loop is
unreached. -/
theorem dijkstraLoop_top {n : ℕ} (ew : Fin n → Fin n → WithTop ℚ) (fuel : ℕ)
    (st : DijkState n) (hcard : n ≤ fuel + st.visited.card) :
    ∀ v, v ∉ (dijkstraLoop ew fuel st).visited →
      (dijkstraLoop ew fuel st).dist v = ⊤ := by
  induction fuel generalizing st with
  | zero =>
    intro v hv
    exfalso
    apply hv
    have hle : st.visited.card ≤ Fintype.card (Fin n) := Finset.card_le_univ _
    rw [Fintype.card_fin] at hle
    have : st.visited = Finset.univ := by
      apply Finset.eq_univ_of_card
      rw [Fintype.card_fin]
      omega
    rw [dijkstraLoop, this]
    exact Finset.mem_univ v
  | succ fuel ih =>
    rw [dijkstraLoop]
    cases hp : pickMin st with
    | none => exact pickMin_none st hp
    | some u =>
      apply ih
      show n ≤ fuel + (insert u st.visited).card
      rw [Finset.card_insert_of_not_mem (pickMin_some st u hp).1]
      omega

/-- At a finished state, the tentative distance of every vertex is a lower
bound on the cost of every walk from the source to it. -/
theorem dijkstra_key {n : ℕ} (ew : Fin n → Fin n → WithTop ℚ) (s : Fin n)
    (st : DijkState n) (hinv : DijkInv ew s st)
    (htop : ∀ v, v ∉ st.visited → st.dist v = ⊤) :
    ∀ (l : List (Fin n)) (v : Fin n), l.head? = some s → l.getLast? = some v →
      st.dist v ≤ walkCost ew l := by
  intro l
  induction l using List.reverseRecOn with
  | nil =>
    intro v h1 _
    cases h1
  | append_singleton l' x ih =>
    intro v h1 h2
    rw [List.getLast?_concat] at h2
    injection h2 with h2
    cases hl' : l' with
    | nil =>
      rw [hl'] at h1
      rw [List.nil_append, List.head?_cons] at h1
      injection h1 with h1
      rw [← h2, h1]
      show st.dist s ≤ (0 : WithTop ℚ)
      exact hinv.src
    | cons y l'' =>
      have hne : l' ≠ [] := by
        rw [hl']
        exact List.cons_ne_nil _ _
      have hgl : ∃ u, l'.getLast? = some u := by
        cases hgl2 : l'.getLast? with
        | none =>
          rw [List.getLast?_eq_none_iff] at hgl2
          exact absurd hgl2 hne
        | some u => exact ⟨u, rfl⟩
      obtain ⟨u, hu⟩ := hgl
      have h1' : l'.head? = some s := by
        rw [hl']
        rw [hl', List.cons_append, List.head?_cons] at h1
        rwa [List.head?_cons]
      have hih := ih u h1' hu
      rw [← hl', ← h2, walkCost_append_last ew l' u x hne hu]
      by_cases hvu : u ∈ st.visited
      · calc st.dist x ≤ st.dist u + ew u x := hinv.relaxed u hvu x
          _ ≤ walkCost ew l' + ew u x := add_le_add_right hih _
      · have ht : st.dist u = ⊤ := htop u hvu
        rw [ht] at hih
        rw [top_le_iff.mp hih, top_add]
        exact le_top

/-- A walk of finite cost witnesses reachability. -/
theorem reachable_of_walk {n : ℕ} (ew : Fin n → Fin n → WithTop ℚ) :
    ∀ (l : List (Fin n)) (a b : Fin n), l.head? = some a →
      l.getLast? = some b → walkCost ew l ≠ ⊤ → ReachableW ew a b := by
  intro l
  induction l with
  | nil =>
    intro a b h1 _ _
    cases h1
  | cons x xs ih =>
    intro a b h1 h2 hc
    rw [List.head?_cons] at h1
    injection h1 with h1
    cases xs with
    | nil =>
      rw [List.getLast?_singleton] at h2
      injection h2 with h2
      rw [← h1, ← h2]
      exact Relation.ReflTransGen.refl
    | cons y l' =>
      rw [List.getLast?_cons_cons] at h2
      have hc' : ew x y + walkCost ew (y :: l') ≠ ⊤ := hc
      have hcost := WithTop.add_ne_top.mp hc'
      rw [← h1]
      exact Relation.ReflTransGen.head hcost.1
        (ih y b (by rw [List.head?_cons]) h2 hcost.2)

/-- Reachability yields a walk of finite cost. -/
theorem walk_of_reachable {n : ℕ} (ew : Fin n → Fin n → WithTop ℚ) (s t : Fin n)
    (h : ReachableW ew s t) :
    ∃ l : List (Fin n), l.head? = some s ∧ l.getLast? = some t ∧
      walkCost ew l ≠ ⊤ := by
  induction h using Relation.ReflTransGen.head_induction_on with
  | refl =>
    refine ⟨[t], rfl, rfl, ?_⟩
    show (0 : WithTop ℚ) ≠ ⊤
    exact WithTop.zero_ne_top
  | @head u v huv hvt ih =>
    obtain ⟨l, h1, h2, hc⟩ := ih
    cases l with
    | nil => cases h1
    | cons x xs =>
      rw [List.head?_cons] at h1
      injection h1 with h1
      refine ⟨u :: x :: xs, rfl, ?_, ?_⟩
      · rwa [List.getLast?_cons_cons]
      · show ew u x + walkCost ew (x :: xs) ≠ ⊤
        refine WithTop.add_ne_top.mpr ⟨?_, hc⟩
        rw [h1]
        exact huv

/-- Correctness of the modelled Dijkstra run: the computed distance is the
least walk cost, and it is infinite exactly on unreachable targets. -/
theorem dijkstraRun_correct {n : ℕ} (ew : Fin n → Fin n → WithTop ℚ)
    (s t : Fin n) (hnn : ∀ u v, 0 ≤ ew u v) :
    IsLeast {c | ∃ l, WalkFrom s t l ∧ walkCost ew l = c}
      ((dijkstraRun ew s).dist t) ∧
    ((dijkstraRun ew s).dist t = ⊤ ↔ ¬ReachableW ew s t) := by
  have hinv : DijkInv ew s (dijkstraRun ew s) :=
    dijkstraLoop_inv ew s hnn n (dijkstraInit s) (dijkInv_init ew s)
  have htop : ∀ v, v ∉ (dijkstraRun ew s).visited → (dijkstraRun ew s).dist v = ⊤ :=
    dijkstraLoop_top ew n (dijkstraInit s) (by simp [dijkstraInit])
  have hkey := dijkstra_key ew s (dijkstraRun ew s) hinv htop
  constructor
  · constructor
    · by_cases hne : (dijkstraRun ew s).dist t = ⊤
      · have hts : t ≠ s := by
          rintro rfl
          have := hinv.src
          rw [hne] at this
          exact absurd this (by simp)
        refine ⟨[s, t], ⟨rfl, rfl⟩, ?_⟩
        have hle := hkey [s, t] t rfl rfl
        rw [hne] at hle
        rw [top_le_iff.mp hle, hne]
      · obtain ⟨l, hw, hc⟩ := hinv.reach t hne
        exact ⟨l, hw, hc⟩
    · rintro c ⟨l, ⟨hh, hl⟩, rfl⟩
      exact hkey l t hh hl
  · constructor
    · intro htopd hreach
      obtain ⟨l, h1, h2, hcne⟩ := walk_of_reachable ew s t hreach
      have := hkey l t h1 h2
      rw [htopd] at this
      exact hcne (top_le_iff.mp this)
    · intro hnreach
      by_contra hne
      obtain ⟨l, ⟨h1, h2⟩, hc⟩ := hinv.reach t hne
      exact hnreach (reachable_of_walk ew l s t h1 h2 (by rw [hc]; exact hne))

/-- C3: on a weighted graph with non-negative edge weights, the dijkstra
command reports as distance the minimum edge-weight sum over all walks
from s to t; the reported distance is infinite exactly when t is
unreachable from s, and in that case the reported path is empty. -/
theorem claim_C3 (G : Graphe) (s t : Fin (nodeCount G))
    (hwei : is_weighted G = true)
    (hnn : ∀ i j : Fin (nodeCount G), hasEdge G i j = true → 0 ≤ weight G i j) :
    IsLeast {c | ∃ l, WalkFrom s t l ∧ walkCost (graphEW G) l = c}
      ((dijkstraCmd G s t).2) ∧
    ((dijkstraCmd G s t).2 = ⊤ ↔ ¬ReachableW (graphEW G) s t) ∧
    ((dijkstraCmd G s t).2 = ⊤ → (dijkstraCmd G s t).1 = []) := by
  have hnn' : ∀ u v : Fin (nodeCount G), 0 ≤ graphEW G u v := by
    intro u v
    unfold graphEW
    split
    · exact_mod_cast hnn u v (by assumption)
    · exact le_top
  have hmain := dijkstraRun_correct (graphEW G) s t hnn'
  refine ⟨hmain.1, hmain.2, ?_⟩
  intro h
  have h' : (dijkstraRun (graphEW G) s).dist t = ⊤ := h
  show (if (dijkstraRun (graphEW G) s).dist t = ⊤ then ([] : List (Fin (nodeCount G)))
    else pathTo (dijkstraRun (graphEW G) s) (nodeCount G) t) = []
  rw [if_pos h']

-- ------------------------------------------------------------------
-- Claim C6: lemmas on the graph model mutators
-- ------------------------------------------------------------------

/-- modifyNode does not touch the weighted flag. -/
theorem modifyNode_weighted (G : Graphe) (i : ℕ) (f : Vertex → Vertex) :
    (modifyNode G i f).weighted = G.weighted := by
  unfold modifyNode
  cases G.nodes.get? i <;> rfl

/-- add_edge does not touch the weighted flag. -/
theorem add_edge_weighted (G : Graphe) (i j : ℕ) (w : ℚ) :
    (add_edge G i j w).weighted = G.weighted := by
  unfold add_edge
  by_cases h : G.directed <;> simp [h, modifyNode_weighted]

/-- modifyNode keeps the vertex count. -/
theorem nodeCount_modifyNode (G : Graphe) (i : ℕ) (f : Vertex → Vertex) :
    nodeCount (modifyNode G i f) = nodeCount G := by
  unfold modifyNode
  cases G.nodes.get? i with
  | none => rfl
  | some v =>
    show (G.nodes.set i (f v)).length = _
    rw [List.length_set]
    rfl

/-- add_edge keeps the vertex count. -/
theorem nodeCount_add_edge (G : Graphe) (i j : ℕ) (w : ℚ) :
    nodeCount (add_edge G i j w) = nodeCount G := by
  unfold add_edge
  by_cases h : G.directed <;> simp [h, nodeCount_modifyNode]

/-- addNeighbor keeps the label. -/
theorem addNeighbor_label (v : Vertex) (j : ℕ) (w : ℚ) :
    (addNeighbor v j w).label = v.label := by
  unfold addNeighbor
  split <;> rfl

/-- modifyNode by a label-preserving function keeps the labels. -/
theorem labels_modifyNode (G : Graphe) (i : ℕ) (f : Vertex → Vertex)
    (hf : ∀ v, (f v).label = v.label) : labels (modifyNode G i f) = labels G := by
  unfold modifyNode
  cases hv : G.nodes.get? i with
  | none => rfl
  | some v =>
    unfold labels
    apply List.ext_get?_iff.mpr
    intro k
    rw [List.get?_map, List.get?_map]
    by_cases hk : k = i
    · subst hk
      rw [List.get?_set_eq, hv]
      show some ((f v).label) = some v.label
      rw [hf v]
    · rw [List.get?_set_ne _ _ (fun h => hk h.symm)]

/-- add_edge keeps the labels. -/
theorem labels_add_edge (G : Graphe) (i j : ℕ) (w : ℚ) :
    labels (add_edge G i j w) = labels G := by
  unfold add_edge
  by_cases h : G.directed
  · simp only [h, if_pos]
    exact labels_modifyNode G i _ (fun v => addNeighbor_label v j w)
  · simp only [h]
    rw [if_neg (by simp [h])]
    rw [labels_modifyNode _ j _ (fun v => addNeighbor_label v i w),
      labels_modifyNode G i _ (fun v => addNeighbor_label v j w)]

/-- The adjacency list of the modified vertex. -/
theorem nbrsAt_modifyNode_self (G : Graphe) (i : ℕ) (f : Vertex → Vertex)
    (v : Vertex) (hv : G.nodes.get? i = some v) :
    nbrsAt (modifyNode G i f) i = (f v).neighbors := by
  unfold modifyNode
  rw [hv]
  unfold nbrsAt
  show (((G.nodes.set i (f v)).get? i).map _).getD [] = _
  rw [List.get?_set_eq, hv]
  rfl

/-- The adjacency list of an untouched vertex. -/
theorem nbrsAt_modifyNode_other (G : Graphe) (i : ℕ) (f : Vertex → Vertex)
    (x : ℕ) (hx : x ≠ i) : nbrsAt (modifyNode G i f) x = nbrsAt G x := by
  unfold modifyNode
  cases hv : G.nodes.get? i with
  | none => rfl
  | some v =>
    unfold nbrsAt
    show (((G.nodes.set i (f v)).get? x).map _).getD [] = _
    rw [List.get?_set_ne _ _ (fun h => hx h.symm)]

/-- Adjacency test after addNeighbor. -/
theorem addNeighbor_any (v : Vertex) (j : ℕ) (w : ℚ) (y : ℕ) :
    ((addNeighbor v j w).neighbors.any (fun p => p.1 == y) = true) ↔
      (v.neighbors.any (fun p => p.1 == y) = true ∨ y = j) := by
  unfold addNeighbor
  by_cases h : v.neighbors.any (fun p => p.1 == j) = true
  · rw [if_pos h]
    constructor
    · exact Or.inl
    · rintro (hy | rfl)
      · exact hy
      · exact h
  · rw [if_neg h]
    show ((v.neighbors ++ [(j, w)]).any _ = true) ↔ _
    rw [List.any_append]
    simp only [Bool.or_eq_true, List.any_cons, List.any_nil, Bool.or_false,
      beq_iff_eq]
    constructor
    · rintro (hy | hy)
      · exact Or.inl hy
      · exact Or.inr hy.symm
    · rintro (hy | rfl)
      · exact Or.inl hy
      · exact Or.inr rfl

/-- Existence of the vertex record at an index below the count. -/
theorem get?_of_lt (G : Graphe) (i : ℕ) (hi : i < nodeCount G) :
    ∃ v, G.nodes.get? i = some v := by
  cases hv : G.nodes.get? i with
  | none =>
    rw [List.get?_eq_none] at hv
    exact absurd hv (not_le.mpr hi)
  | some v => exact ⟨v, rfl⟩

/-- hasEdge in terms of nbrsAt. -/
theorem hasEdge_eq_any (G : Graphe) (x y : ℕ) :
    hasEdge G x y = (nbrsAt G x).any (fun p => p.1 == y) := rfl

/-- nbrsAt at an index whose vertex record is known. -/
theorem nbrsAt_of_get? (G : Graphe) (i : ℕ) (v : Vertex)
    (hv : G.nodes.get? i = some v) : nbrsAt G i = v.neighbors := by
  unfold nbrsAt
  rw [hv]
  rfl

/-- The vertex record at an untouched index of a modifyNode result. -/
theorem get?_modifyNode_other (G : Graphe) (i : ℕ) (f : Vertex → Vertex)
    (x : ℕ) (hx : x ≠ i) : (modifyNode G i f).nodes.get? x = G.nodes.get? x := by
  unfold modifyNode
  cases hv : G.nodes.get? i with
  | none => rfl
  | some v =>
    show (G.nodes.set i (f v)).get? x = _
    rw [List.get?_set_ne _ _ (fun h => hx h.symm)]

/-- The adjacency list of the first endpoint after add_edge. -/
theorem nbrsAt_add_edge_self (G : Graphe) (i j : ℕ) (w : ℚ) (v : Vertex)
    (hv : G.nodes.get? i = some v) (hcase : G.directed = true ∨ i ≠ j) :
    nbrsAt (add_edge G i j w) i = (addNeighbor v j w).neighbors := by
  unfold add_edge
  by_cases hd : G.directed = true
  · rw [if_pos hd]
    exact nbrsAt_modifyNode_self G i _ v hv
  · rw [if_neg hd]
    have hne : i ≠ j := hcase.resolve_left hd
    rw [nbrsAt_modifyNode_other _ j _ i hne]
    exact nbrsAt_modifyNode_self G i _ v hv

/-- The adjacency list of the second endpoint after an undirected
add_edge. -/
theorem nbrsAt_add_edge_snd (G : Graphe) (i j : ℕ) (w : ℚ) (v : Vertex)
    (hv : G.nodes.get? j = some v) (hd : G.directed = false) (hne : i ≠ j) :
    nbrsAt (add_edge G i j w) j = (addNeighbor v i w).neighbors := by
  unfold add_edge
  rw [if_neg (by simp [hd])]
  apply nbrsAt_modifyNode_self
  rw [get?_modifyNode_other _ i _ j (fun h => hne h.symm)]
  exact hv

/-- The adjacency list of any other vertex after add_edge. -/
theorem nbrsAt_add_edge_other (G : Graphe) (i j : ℕ) (w : ℚ) (x : ℕ)
    (hxi : x ≠ i) (hxj : G.directed = false → x ≠ j) :
    nbrsAt (add_edge G i j w) x = nbrsAt G x := by
  unfold add_edge
  by_cases hd : G.directed = true
  · rw [if_pos hd]
    exact nbrsAt_modifyNode_other G i _ x hxi
  · rw [if_neg hd]
    have hd' : G.directed = false := by
      cases h : G.directed
      · rfl
      · exact absurd h hd
    rw [nbrsAt_modifyNode_other _ j _ x (hxj hd')]
    exact nbrsAt_modifyNode_other G i _ x hxi

/-- addNeighbor is a no-op when the adjacency entry is present. -/
theorem addNeighbor_noop (v : Vertex) (j : ℕ) (w : ℚ)
    (h : v.neighbors.any (fun p => p.1 == j) = true) : addNeighbor v j w = v := by
  unfold addNeighbor
  rw [if_pos h]

/-- find? of a foreign target is unchanged by addNeighbor. -/
theorem addNeighbor_find_other (v : Vertex) (j : ℕ) (w : ℚ) (y : ℕ) (hy : y ≠ j) :
    (addNeighbor v j w).neighbors.find? (fun p => p.1 == y) =
      v.neighbors.find? (fun p => p.1 == y) := by
  unfold addNeighbor
  by_cases h : v.neighbors.any (fun p => p.1 == j) = true
  · rw [if_pos h]
  · rw [if_neg h]
    show ((v.neighbors ++ [(j, w)]).find? _) = _
    rw [List.find?_append]
    have h2 : ([((j : ℕ), w)].find? (fun p => p.1 == y)) = none := by
      rw [List.find?_cons_of_neg]
      · rfl
      · simp only [beq_iff_eq]
        exact fun h => hy h.symm
    rw [h2]
    cases v.neighbors.find? (fun p => p.1 == y) <;> rfl

/-- find? of a fresh target after addNeighbor hits the appended entry. -/
theorem addNeighbor_find_fresh (v : Vertex) (j : ℕ) (w : ℚ)
    (hfresh : v.neighbors.any (fun p => p.1 == j) = false) :
    (addNeighbor v j w).neighbors.find? (fun p => p.1 == j) = some (j, w) := by
  unfold addNeighbor
  rw [if_neg (by simp [hfresh])]
  show ((v.neighbors ++ [(j, w)]).find? _) = _
  rw [List.find?_append]
  have h1 : v.neighbors.find? (fun p => p.1 == j) = none := by
    rw [List.find?_eq_none]
    intro x hx
    exact (List.any_eq_false.mp hfresh) x hx
  rw [h1, Option.none_or, List.find?_cons_of_pos _ (by simp)]

/-- Edge existence after add_edge: the old edges plus the covered pairs. -/
theorem hasEdge_add_edge_iff (G : Graphe) (i j : ℕ) (w : ℚ)
    (hi : i < nodeCount G) (hj : j < nodeCount G)
    (hcase : G.directed = true ∨ i ≠ j) (x y : ℕ) :
    hasEdge (add_edge G i j w) x y = true ↔
      (hasEdge G x y = true ∨ coversPair G.directed (i, j) x y) := by
  obtain ⟨vi, hvi⟩ := get?_of_lt G i hi
  obtain ⟨vj, hvj⟩ := get?_of_lt G j hj
  by_cases hd : G.directed = true
  · by_cases hx : x = i
    · subst hx
      rw [hasEdge_eq_any, nbrsAt_add_edge_self G x j w vi hvi hcase,
        hasEdge_eq_any, nbrsAt_of_get? G x vi hvi]
      rw [addNeighbor_any]
      unfold coversPair
      simp [hd]
    · rw [hasEdge_eq_any, nbrsAt_add_edge_other G i j w x hx
        (fun hf => absurd hd (by simp [hf])), ← hasEdge_eq_any]
      unfold coversPair
      simp [hd, hx]
  · have hd' : G.directed = false := by
      cases h : G.directed
      · rfl
      · exact absurd h hd
    have hne : i ≠ j := hcase.resolve_left hd
    by_cases hx1 : x = i
    · subst hx1
      rw [hasEdge_eq_any, nbrsAt_add_edge_self G x j w vi hvi hcase,
        hasEdge_eq_any, nbrsAt_of_get? G x vi hvi]
      rw [addNeighbor_any]
      unfold coversPair
      simp [hd', hne]
    · by_cases hx2 : x = j
      · subst hx2
        rw [hasEdge_eq_any, nbrsAt_add_edge_snd G i x w vj hvj hd' hne,
          hasEdge_eq_any, nbrsAt_of_get? G x vj hvj]
        rw [addNeighbor_any]
        unfold coversPair
        simp [hd', hne.symm]
      · rw [hasEdge_eq_any, nbrsAt_add_edge_other G i j w x hx1 (fun _ => hx2),
          ← hasEdge_eq_any]
        unfold coversPair
        simp [hd', hx1, hx2]

/-- Weight of a freshly covered pair after add_edge. -/
theorem weight_add_edge_covered (G : Graphe) (i j : ℕ) (w : ℚ)
    (hi : i < nodeCount G) (hj : j < nodeCount G)
    (hcase : G.directed = true ∨ i ≠ j) (x y : ℕ)
    (hc : coversPair G.directed (i, j) x y) (hfresh : hasEdge G x y = false) :
    weight (add_edge G i j w) x y = w := by
  obtain ⟨vi, hvi⟩ := get?_of_lt G i hi
  obtain ⟨vj, hvj⟩ := get?_of_lt G j hj
  rcases hc with ⟨hx, hy⟩ | ⟨hd', hx, hy⟩
  · subst hx
    subst hy
    unfold weight
    rw [nbrsAt_add_edge_self G x y w vi hvi hcase]
    have hfr : vi.neighbors.any (fun p => p.1 == y) = false := by
      rw [hasEdge_eq_any, nbrsAt_of_get? G x vi hvi] at hfresh
      exact hfresh
    rw [addNeighbor_find_fresh vi y w hfr]
    rfl
  · subst hx
    subst hy
    have hne : y ≠ x := hcase.resolve_left (by simp [hd'])
    unfold weight
    rw [nbrsAt_add_edge_snd G y x w vj hvj hd' hne]
    have hfr : vj.neighbors.any (fun p => p.1 == y) = false := by
      rw [hasEdge_eq_any, nbrsAt_of_get? G x vj hvj] at hfresh
      exact hfresh
    rw [addNeighbor_find_fresh vj y w hfr]
    rfl

/-- Weight of an uncovered pair is unchanged by add_edge. -/
theorem weight_add_edge_other (G : Graphe) (i j : ℕ) (w : ℚ)
    (hi : i < nodeCount G) (hj : j < nodeCount G)
    (hcase : G.directed = true ∨ i ≠ j) (x y : ℕ)
    (hnc : ¬ coversPair G.directed (i, j) x y) :
    weight (add_edge G i j w) x y = weight G x y := by
  obtain ⟨vi, hvi⟩ := get?_of_lt G i hi
  obtain ⟨vj, hvj⟩ := get?_of_lt G j hj
  unfold coversPair at hnc
  push_neg at hnc
  by_cases hd : G.directed = true
  · by_cases hx : x = i
    · subst hx
      have hyj : y ≠ j := hnc.1 rfl
      unfold weight
      rw [nbrsAt_add_edge_self G x j w vi hvi hcase,
        addNeighbor_find_other vi j w y hyj, nbrsAt_of_get? G x vi hvi]
    · unfold weight
      rw [nbrsAt_add_edge_other G i j w x hx (fun hf => absurd hd (by simp [hf]))]
  · have hd' : G.directed = false := by
      cases h : G.directed
      · rfl
      · exact absurd h hd
    have hne : i ≠ j := hcase.resolve_left hd
    by_cases hx1 : x = i
    · subst hx1
      have hyj : y ≠ j := hnc.1 rfl
      unfold weight
      rw [nbrsAt_add_edge_self G x j w vi hvi hcase,
        addNeighbor_find_other vi j w y hyj, nbrsAt_of_get? G x vi hvi]
    · by_cases hx2 : x = j
      · subst hx2
        have hyi : y ≠ i := (hnc.2 hd' rfl)
        unfold weight
        rw [nbrsAt_add_edge_snd G i x w vj hvj hd' hne,
          addNeighbor_find_other vj i w y hyi, nbrsAt_of_get? G x vj hvj]
      · unfold weight
        rw [nbrsAt_add_edge_other G i j w x hx1 (fun _ => hx2)]

/-- Weight at an already present pair is unchanged by any add_edge. -/
theorem weight_add_edge_existing (G : Graphe) (i j : ℕ) (w : ℚ)
    (hi : i < nodeCount G) (hj : j < nodeCount G)
    (hcase : G.directed = true ∨ i ≠ j) (x y : ℕ)
    (he : hasEdge G x y = true) :
    weight (add_edge G i j w) x y = weight G x y := by
  by_cases hc : coversPair G.directed (i, j) x y
  · obtain ⟨vi, hvi⟩ := get?_of_lt G i hi
    obtain ⟨vj, hvj⟩ := get?_of_lt G j hj
    rcases hc with ⟨hx, hy⟩ | ⟨hd', hx, hy⟩
    · subst hx
      subst hy
      have hany : vi.neighbors.any (fun p => p.1 == y) = true := by
        rw [hasEdge_eq_any, nbrsAt_of_get? G x vi hvi] at he
        exact he
      unfold weight
      rw [nbrsAt_add_edge_self G x y w vi hvi hcase, addNeighbor_noop vi y w hany,
        nbrsAt_of_get? G x vi hvi]
    · subst hx
      subst hy
      have hne : y ≠ x := hcase.resolve_left (by simp [hd'])
      have hany : vj.neighbors.any (fun p => p.1 == y) = true := by
        rw [hasEdge_eq_any, nbrsAt_of_get? G x vj hvj] at he
        exact he
      unfold weight
      rw [nbrsAt_add_edge_snd G y x w vj hvj hd' hne, addNeighbor_noop vj y w hany,
        nbrsAt_of_get? G x vj hvj]
  · exact weight_add_edge_other G i j w hi hj hcase x y hc

/-- Two booleans agreeing as propositions are equal. -/
theorem bool_eq_of_iff (a b : Bool) (h : a = true ↔ b = true) : a = b := by
  cases a <;> cases b <;> simp_all

/-- Membership in the undirected edge list, characterized. -/
theorem mem_undirEdges_iff (G : Graphe) (x y : ℕ) :
    ((x, y) ∈ undirEdges G) ↔
      (x < nodeCount G ∧ y < nodeCount G ∧ x < y ∧ hasEdge G x y = true) := by
  unfold undirEdges
  simp only [List.mem_flatMap, List.mem_map, List.mem_filter, List.mem_range,
    Bool.and_eq_true, decide_eq_true_eq, Prod.mk.injEq]
  constructor
  · rintro ⟨i, hi, j, ⟨hj, hlt, he⟩, hix, hjy⟩
    rw [← hix, ← hjy]
    exact ⟨hi, hj, hlt, he⟩
  · rintro ⟨hx, hy, hlt, he⟩
    exact ⟨x, hx, y, ⟨hy, hlt, he⟩, rfl, rfl⟩

/-- Membership in the written edge list of a digraph, characterized. -/
theorem mem_dotEdges_iff_dir (G : Graphe) (hd : G.directed = true) (x y : ℕ) :
    ((x, y) ∈ dotEdges G) ↔
      (x < nodeCount G ∧ y < nodeCount G ∧ hasEdge G x y = true) := by
  unfold dotEdges
  rw [if_pos hd]
  simp only [List.mem_flatMap, List.mem_map, List.mem_filter, List.mem_range,
    Prod.mk.injEq]
  constructor
  · rintro ⟨i, hi, j, ⟨hj, he⟩, hix, hjy⟩
    rw [← hix, ← hjy]
    exact ⟨hi, hj, he⟩
  · rintro ⟨hx, hy, he⟩
    exact ⟨x, hx, y, ⟨hy, he⟩, rfl, rfl⟩

/-- The written edge list of an undirected graph is the undirected edge
list. -/
theorem dotEdges_undir (G : Graphe) (hd : G.directed = false) :
    dotEdges G = undirEdges G := by
  unfold dotEdges
  rw [if_neg (by simp [hd])]

/-- symmetricAdj, read as a statement about hasEdge. -/
theorem symmetricAdj_spec (G : Graphe) (h : symmetricAdj G = true) (i j : ℕ)
    (hi : i < nodeCount G) (hj : j < nodeCount G) :
    hasEdge G i j = hasEdge G j i := by
  unfold symmetricAdj at h
  simp only [List.all_eq_true, List.mem_range, beq_iff_eq] at h
  exact h i hi j hj

/-- noSelfLoop, read as a statement about hasEdge. -/
theorem noSelfLoop_spec (G : Graphe) (h : noSelfLoop G = true) (i : ℕ)
    (hi : i < nodeCount G) : hasEdge G i i = false := by
  unfold noSelfLoop at h
  simp only [List.all_eq_true, List.mem_range, Bool.not_eq_true'] at h
  exact h i hi

/-- weightSymm, read as a statement about weight. -/
theorem weightSymm_spec (G : Graphe) (h : weightSymm G = true) (i j : ℕ)
    (hi : i < nodeCount G) (hj : j < nodeCount G) (he : hasEdge G i j = true) :
    weight G i j = weight G j i := by
  unfold weightSymm at h
  simp only [List.all_eq_true, List.mem_range, Bool.or_eq_true,
    Bool.not_eq_true', beq_iff_eq] at h
  rcases h i hi j hj with hfalse | hw
  · rw [he] at hfalse
    cases hfalse
  · exact hw

/-- findIdx? on a duplicate-free list finds exactly the given position. -/
theorem findIdx_nodup_aux (l : List ℤ) (h : l.Nodup) (i : ℕ) (a : ℤ)
    (ha : l.get? i = some a) (s : ℕ) :
    l.findIdx? (fun x => x == a) s = some (s + i) := by
  induction l generalizing i s with
  | nil => exact absurd ha (by simp)
  | cons x xs ih =>
    rw [List.findIdx?_cons]
    cases i with
    | zero =>
      have hx : x = a := by
        have : some x = some a := ha
        exact Option.some.inj this
      rw [if_pos (by simp [hx])]
      rfl
    | succ k =>
      have hmem : a ∈ xs := List.get?_mem ha
      have hx : x ∉ xs := (List.nodup_cons.mp h).1
      have hxa : (x == a) = false := by
        simp only [beq_eq_false_iff_ne]
        intro heq
        rw [heq] at hx
        exact hx hmem
      rw [if_neg (by simp [hxa])]
      have := ih (List.nodup_cons.mp h).2 k ha (s + 1)
      rw [this]
      have harith : s + 1 + k = s + (k + 1) := by omega
      rw [harith]

/-- labelAt in terms of the label list. -/
theorem labels_get? (G : Graphe) (i : ℕ) (hi : i < nodeCount G) :
    (labels G).get? i = some (labelAt G i) := by
  unfold labels labelAt
  rw [List.get?_map]
  obtain ⟨v, hv⟩ := get?_of_lt G i hi
  rw [hv]
  rfl

/-- The label of an existing vertex occurs in the label list. -/
theorem labelAt_mem (G : Graphe) (i : ℕ) (hi : i < nodeCount G) :
    labelAt G i ∈ labels G := List.get?_mem (labels_get? G i hi)

/-- node_index inverts labelAt on graphs with duplicate-free labels. -/
theorem node_index_labelAt (G : Graphe) (i : ℕ) (hnd : (labels G).Nodup)
    (hi : i < nodeCount G) : node_index G (labelAt G i) = some i := by
  unfold node_index
  have := findIdx_nodup_aux (labels G) hnd i (labelAt G i) (labels_get? G i hi) 0
  simpa using this

/-- labelAt only depends on the label list. -/
theorem labelAt_congr (G H : Graphe) (h : labels G = labels H) (i : ℕ) :
    labelAt G i = labelAt H i := by
  unfold labelAt
  have hg : (labels G).get? i = (labels H).get? i := by rw [h]
  unfold labels at hg
  rw [List.get?_map, List.get?_map] at hg
  cases hG : G.nodes.get? i <;> cases hH : H.nodes.get? i <;>
    rw [hG, hH] at hg <;> simp_all

/-- add_node on a graph already holding the label is the identity. -/
theorem add_node_present (G : Graphe) (l : ℤ) (h : l ∈ labels G) :
    add_node G l = G := by
  unfold add_node
  rw [if_pos (List.elem_iff.mpr h)]

/-- Adding fresh, duplicate-free labels appends bare vertex records. -/
theorem add_nodes_fresh (G0 : Graphe) (ls : List ℤ)
    (h : (labels G0 ++ ls).Nodup) :
    add_nodes G0 ls =
      ⟨G0.nodes ++ ls.map (fun l => ⟨l, []⟩), G0.directed, G0.weighted⟩ := by
  induction ls generalizing G0 with
  | nil =>
    show G0 = _
    rw [List.map_nil, List.append_nil]
  | cons l tl ih =>
    have hl : l ∉ labels G0 := by
      intro hmem
      have hd := List.disjoint_of_nodup_append h
      exact hd hmem (List.mem_cons_self l tl)
    show add_nodes (add_node G0 l) tl = _
    have hstep : add_node G0 l = ⟨G0.nodes ++ [⟨l, []⟩], G0.directed, G0.weighted⟩ := by
      unfold add_node
      rw [if_neg]
      intro hc
      exact hl (List.elem_iff.mp hc)
    rw [hstep]
    have hlab : labels (⟨G0.nodes ++ [⟨l, []⟩], G0.directed, G0.weighted⟩ : Graphe) =
        labels G0 ++ [l] := by
      unfold labels
      rw [List.map_append]
      rfl
    have h' : (labels (⟨G0.nodes ++ [⟨l, []⟩], G0.directed, G0.weighted⟩ : Graphe) ++ tl).Nodup := by
      rw [hlab, List.append_assoc]
      exact h
    have := ih ⟨G0.nodes ++ [⟨l, []⟩], G0.directed, G0.weighted⟩ h'
    rw [this]
    show (⟨(G0.nodes ++ [⟨l, []⟩]) ++ tl.map _, _, _⟩ : Graphe) = _
    rw [List.append_assoc]
    rfl

/-- Labels of a graph whose records carry empty adjacency. -/
theorem labels_mk_map (ls : List ℤ) (d w : Bool) :
    labels ⟨ls.map (fun l => ⟨l, []⟩), d, w⟩ = ls := by
  unfold labels
  rw [List.map_map]
  show ls.map (fun l => l) = ls
  exact List.map_id' ls

/-- Vertex count of a graph whose records carry empty adjacency. -/
theorem nodeCount_mk_map (ls : List ℤ) (d w : Bool) :
    nodeCount (⟨ls.map (fun l => ⟨l, []⟩), d, w⟩ : Graphe) = ls.length := by
  unfold nodeCount
  exact List.length_map ls _

/-- A graph whose records carry empty adjacency has no edge. -/
theorem hasEdge_mk_map (ls : List ℤ) (d w : Bool) (x y : ℕ) :
    hasEdge (⟨ls.map (fun l => ⟨l, []⟩), d, w⟩ : Graphe) x y = false := by
  unfold hasEdge nbrsAt
  show ((((ls.map fun l => (⟨l, []⟩ : Vertex)).get? x).map _).getD []).any _ = false
  rw [List.get?_map]
  cases ls.get? x <;> rfl

/-- The import loop over a vertex statement. -/
theorem readStmts_vertex_step (a : ℤ) (rest : List DotTok) (H : Graphe) :
    readStmts (DotTok.name a :: DotTok.semi :: rest) H =
      readStmts rest (add_node H a) := rfl

/-- The import loop over an unweighted undirected edge statement. -/
theorem readStmts_edgeU_step (a b : ℤ) (rest : List DotTok) (H : Graphe) :
    readStmts (DotTok.name a :: DotTok.edgeU :: DotTok.name b :: DotTok.semi :: rest) H =
      if H.directed then none else readStmts rest (addEdgeL H a b 1 false) := rfl

/-- The import loop over an unweighted directed edge statement. -/
theorem readStmts_edgeD_step (a b : ℤ) (rest : List DotTok) (H : Graphe) :
    readStmts (DotTok.name a :: DotTok.edgeD :: DotTok.name b :: DotTok.semi :: rest) H =
      if H.directed then readStmts rest (addEdgeL H a b 1 false) else none := rfl

/-- The import loop over a weighted undirected edge statement. -/
theorem readStmts_edgeUW_step (a b : ℤ) (w : ℚ) (rest : List DotTok) (H : Graphe) :
    readStmts (DotTok.name a :: DotTok.edgeU :: DotTok.name b :: DotTok.lbrack ::
      DotTok.attrWeight :: DotTok.equal :: DotTok.num w :: DotTok.rbrack ::
      DotTok.semi :: rest) H =
      if H.directed then none else readStmts rest (addEdgeL H a b w true) := rfl

/-- The import loop over a weighted directed edge statement. -/
theorem readStmts_edgeDW_step (a b : ℤ) (w : ℚ) (rest : List DotTok) (H : Graphe) :
    readStmts (DotTok.name a :: DotTok.edgeD :: DotTok.name b :: DotTok.lbrack ::
      DotTok.attrWeight :: DotTok.equal :: DotTok.num w :: DotTok.rbrack ::
      DotTok.semi :: rest) H =
      if H.directed then readStmts rest (addEdgeL H a b w true) else none := rfl

/-- The import loop over the closing brace. -/
theorem readStmts_close (H : Graphe) : readStmts [DotTok.rbrace] H = some H := rfl

/-- The vertex phase of the import adds the listed vertices in order. -/
theorem readStmts_vertexPhase (ls : List ℤ) (rest : List DotTok) :
    ∀ H : Graphe,
    readStmts ((ls.flatMap (fun l => [DotTok.name l, DotTok.semi])) ++ rest) H =
      readStmts rest (add_nodes H ls) := by
  induction ls with
  | nil => intro H; rfl
  | cons l tl ih =>
    intro H
    show readStmts (DotTok.name l :: DotTok.semi ::
      (tl.flatMap (fun l => [DotTok.name l, DotTok.semi]) ++ rest)) H = _
    rw [readStmts_vertex_step]
    exact ih (add_node H l)

/-- addEdgeL on labels already present: an indexed add_edge, then the
weighted flag when a weight attribute was read. -/
theorem addEdgeL_known (H : Graphe) (i j : ℕ) (w : ℚ) (useW : Bool)
    (hnd : (labels H).Nodup) (hi : i < nodeCount H) (hj : j < nodeCount H) :
    addEdgeL H (labelAt H i) (labelAt H j) w useW =
      if useW then set_weighted (add_edge H i j w) true else add_edge H i j w := by
  have h1 : add_node H (labelAt H i) = H := add_node_present H _ (labelAt_mem H i hi)
  have h2 : add_node H (labelAt H j) = H := add_node_present H _ (labelAt_mem H j hj)
  simp only [addEdgeL, h1, h2, node_index_labelAt H i hnd hi,
    node_index_labelAt H j hnd hj, Option.getD_some]

/-- modifyNode passes through set_weighted. -/
theorem modifyNode_set_weighted (G : Graphe) (b : Bool) (i : ℕ) (f : Vertex → Vertex) :
    modifyNode (set_weighted G b) i f = set_weighted (modifyNode G i f) b := by
  show (match G.nodes.get? i with
        | some v => (⟨G.nodes.set i (f v), G.directed, b⟩ : Graphe)
        | none => set_weighted G b) = _
  cases hv : G.nodes.get? i with
  | none =>
    show set_weighted G b = set_weighted (modifyNode G i f) b
    unfold modifyNode
    rw [hv]
  | some v =>
    show (⟨G.nodes.set i (f v), G.directed, b⟩ : Graphe) = set_weighted (modifyNode G i f) b
    unfold modifyNode
    rw [hv]
    rfl

/-- add_edge passes through set_weighted. -/
theorem add_edge_set_weighted (G : Graphe) (b : Bool) (i j : ℕ) (w : ℚ) :
    add_edge (set_weighted G b) i j w = set_weighted (add_edge G i j w) b := by
  by_cases hd : G.directed = true
  · have hXd : (set_weighted G b).directed = true := hd
    unfold add_edge
    rw [if_pos hXd, if_pos hd]
    exact modifyNode_set_weighted G b i _
  · have hXd : ¬((set_weighted G b).directed = true) := hd
    unfold add_edge
    rw [if_neg hXd, if_neg hd]
    rw [modifyNode_set_weighted G b i _, modifyNode_set_weighted _ b j _]

/-- importFold passes through set_weighted. -/
theorem importFold_set_weighted (G : Graphe) (es : List (ℕ × ℕ)) (b : Bool) :
    ∀ H, importFold G es (set_weighted H b) = set_weighted (importFold G es H) b := by
  induction es with
  | nil => intro H; rfl
  | cons p tl ih =>
    intro H
    show importFold G tl (add_edge (set_weighted H b) p.1 p.2 _) = _
    rw [add_edge_set_weighted, ih]
    rfl

/-- importFold keeps the directed flag. -/
theorem importFold_directed (G : Graphe) (es : List (ℕ × ℕ)) :
    ∀ H, (importFold G es H).directed = H.directed := by
  induction es with
  | nil => intro H; rfl
  | cons p tl ih =>
    intro H
    show (importFold G tl (add_edge H p.1 p.2 _)).directed = _
    rw [ih, add_edge_directed]

/-- importFold keeps the weighted flag. -/
theorem importFold_weighted (G : Graphe) (es : List (ℕ × ℕ)) :
    ∀ H, (importFold G es H).weighted = H.weighted := by
  induction es with
  | nil => intro H; rfl
  | cons p tl ih =>
    intro H
    show (importFold G tl (add_edge H p.1 p.2 _)).weighted = _
    rw [ih, add_edge_weighted]

/-- importFold keeps the labels. -/
theorem importFold_labels (G : Graphe) (es : List (ℕ × ℕ)) :
    ∀ H, labels (importFold G es H) = labels H := by
  induction es with
  | nil => intro H; rfl
  | cons p tl ih =>
    intro H
    show labels (importFold G tl (add_edge H p.1 p.2 _)) = _
    rw [ih, labels_add_edge]

/-- importFold keeps the vertex count. -/
theorem importFold_nodeCount (G : Graphe) (es : List (ℕ × ℕ)) :
    ∀ H, nodeCount (importFold G es H) = nodeCount H := by
  induction es with
  | nil => intro H; rfl
  | cons p tl ih =>
    intro H
    show nodeCount (importFold G tl (add_edge H p.1 p.2 _)) = _
    rw [ih, nodeCount_add_edge]

/-- dotStep keeps the directed flag. -/
theorem dotStep_directed (G H : Graphe) (p : ℕ × ℕ) :
    (dotStep G H p).directed = H.directed := by
  unfold dotStep
  by_cases hw : G.weighted = true
  · rw [if_pos hw]
    exact add_edge_directed H p.1 p.2 _
  · rw [if_neg hw]
    exact add_edge_directed H p.1 p.2 _

/-- dotStep keeps the labels. -/
theorem dotStep_labels (G H : Graphe) (p : ℕ × ℕ) :
    labels (dotStep G H p) = labels H := by
  unfold dotStep
  by_cases hw : G.weighted = true
  · rw [if_pos hw]
    exact labels_add_edge H p.1 p.2 _
  · rw [if_neg hw]
    exact labels_add_edge H p.1 p.2 _

/-- dotStep keeps the vertex count. -/
theorem dotStep_nodeCount (G H : Graphe) (p : ℕ × ℕ) :
    nodeCount (dotStep G H p) = nodeCount H := by
  unfold dotStep
  by_cases hw : G.weighted = true
  · rw [if_pos hw]
    exact nodeCount_add_edge H p.1 p.2 _
  · rw [if_neg hw]
    exact nodeCount_add_edge H p.1 p.2 _

/-- Folding dotStep over an unweighted source is the plain edge fold. -/
theorem foldl_dotStep_unweighted (G : Graphe) (hw : G.weighted = false)
    (es : List (ℕ × ℕ)) : ∀ H, es.foldl (dotStep G) H = importFold G es H := by
  induction es with
  | nil => intro H; rfl
  | cons p tl ih =>
    intro H
    show tl.foldl (dotStep G) (dotStep G H p) = _
    rw [ih]
    unfold dotStep
    rw [if_neg (by simp [hw])]
    show importFold G tl (add_edge H p.1 p.2 1) =
      importFold G tl (add_edge H p.1 p.2 (if G.weighted = true then _ else 1))
    rw [if_neg (by simp [hw])]

/-- Folding dotStep over a weighted source with at least one edge is the
plain edge fold followed by setting the weighted flag. -/
theorem foldl_dotStep_weighted (G : Graphe) (hw : G.weighted = true)
    (es : List (ℕ × ℕ)) (hne : es ≠ []) :
    ∀ H, es.foldl (dotStep G) H = set_weighted (importFold G es H) true := by
  induction es with
  | nil => exact absurd rfl hne
  | cons p tl ih =>
    intro H
    show tl.foldl (dotStep G) (dotStep G H p) = _
    by_cases htl : tl = []
    · subst htl
      show dotStep G H p = _
      unfold dotStep
      rw [if_pos hw]
      show set_weighted (add_edge H p.1 p.2 (weight G p.1 p.2)) true =
        set_weighted (add_edge H p.1 p.2 (if G.weighted = true then weight G p.1 p.2 else 1)) true
      rw [if_pos hw]
    · rw [ih htl]
      unfold dotStep
      rw [if_pos hw, importFold_set_weighted]
      show set_weighted (importFold G tl (add_edge H p.1 p.2 (weight G p.1 p.2))) true =
        set_weighted (importFold G tl (add_edge H p.1 p.2 (if G.weighted = true then weight G p.1 p.2 else 1))) true
      rw [if_pos hw]

/-- One exported edge statement, as consumed by the import loop. -/
theorem readStmts_edgeStmt_step (G H : Graphe) (p : ℕ × ℕ) (rest : List DotTok)
    (hdir : H.directed = G.directed) (hnd : (labels H).Nodup)
    (hi : p.1 < nodeCount H) (hj : p.2 < nodeCount H)
    (hLa : labelAt G p.1 = labelAt H p.1) (hLb : labelAt G p.2 = labelAt H p.2) :
    readStmts (edgeStmt G p ++ rest) H = readStmts rest (dotStep G H p) := by
  by_cases hgd : G.directed = true
  · have hHd : H.directed = true := by rw [hdir]; exact hgd
    by_cases hgw : G.weighted = true
    · have hstmt : edgeStmt G p = [DotTok.name (labelAt G p.1), DotTok.edgeD,
          DotTok.name (labelAt G p.2), DotTok.lbrack, DotTok.attrWeight, DotTok.equal,
          DotTok.num (weight G p.1 p.2), DotTok.rbrack, DotTok.semi] := by
        unfold edgeStmt edgeTok
        rw [if_pos hgd, if_pos hgw]
        rfl
      rw [hstmt]
      show readStmts (DotTok.name (labelAt G p.1) :: DotTok.edgeD ::
        DotTok.name (labelAt G p.2) :: DotTok.lbrack :: DotTok.attrWeight ::
        DotTok.equal :: DotTok.num (weight G p.1 p.2) :: DotTok.rbrack ::
        DotTok.semi :: rest) H = _
      rw [readStmts_edgeDW_step, if_pos hHd, hLa, hLb,
        addEdgeL_known H p.1 p.2 _ true hnd hi hj]
      unfold dotStep
      rw [if_pos hgw, if_pos rfl]
    · have hgw' : G.weighted = false := by
        cases h : G.weighted
        · rfl
        · exact absurd h hgw
      have hstmt : edgeStmt G p = [DotTok.name (labelAt G p.1), DotTok.edgeD,
          DotTok.name (labelAt G p.2), DotTok.semi] := by
        unfold edgeStmt edgeTok
        rw [if_pos hgd, if_neg (by simp [hgw'])]
        rfl
      rw [hstmt]
      show readStmts (DotTok.name (labelAt G p.1) :: DotTok.edgeD ::
        DotTok.name (labelAt G p.2) :: DotTok.semi :: rest) H = _
      rw [readStmts_edgeD_step, if_pos hHd, hLa, hLb,
        addEdgeL_known H p.1 p.2 1 false hnd hi hj]
      unfold dotStep
      rw [hgw']
      rfl
  · have hgd' : G.directed = false := by
      cases h : G.directed
      · rfl
      · exact absurd h hgd
    have hHd : ¬(H.directed = true) := by rw [hdir, hgd']; simp
    by_cases hgw : G.weighted = true
    · have hstmt : edgeStmt G p = [DotTok.name (labelAt G p.1), DotTok.edgeU,
          DotTok.name (labelAt G p.2), DotTok.lbrack, DotTok.attrWeight, DotTok.equal,
          DotTok.num (weight G p.1 p.2), DotTok.rbrack, DotTok.semi] := by
        unfold edgeStmt edgeTok
        rw [if_neg (by simp [hgd']), if_pos hgw]
        rfl
      rw [hstmt]
      show readStmts (DotTok.name (labelAt G p.1) :: DotTok.edgeU ::
        DotTok.name (labelAt G p.2) :: DotTok.lbrack :: DotTok.attrWeight ::
        DotTok.equal :: DotTok.num (weight G p.1 p.2) :: DotTok.rbrack ::
        DotTok.semi :: rest) H = _
      rw [readStmts_edgeUW_step, if_neg hHd, hLa, hLb,
        addEdgeL_known H p.1 p.2 _ true hnd hi hj]
      unfold dotStep
      rw [if_pos hgw, if_pos rfl]
    · have hgw' : G.weighted = false := by
        cases h : G.weighted
        · rfl
        · exact absurd h hgw
      have hstmt : edgeStmt G p = [DotTok.name (labelAt G p.1), DotTok.edgeU,
          DotTok.name (labelAt G p.2), DotTok.semi] := by
        unfold edgeStmt edgeTok
        rw [if_neg (by simp [hgd']), if_neg (by simp [hgw'])]
        rfl
      rw [hstmt]
      show readStmts (DotTok.name (labelAt G p.1) :: DotTok.edgeU ::
        DotTok.name (labelAt G p.2) :: DotTok.semi :: rest) H = _
      rw [readStmts_edgeU_step, if_neg hHd, hLa, hLb,
        addEdgeL_known H p.1 p.2 1 false hnd hi hj]
      unfold dotStep
      rw [hgw']
      rfl

/-- The edge phase of the import folds dotStep over the written edges. -/
theorem readStmts_edgePhase (G : Graphe) (es : List (ℕ × ℕ)) (rest : List DotTok) :
    ∀ H : Graphe, H.directed = G.directed → labels H = labels G →
    nodeCount H = nodeCount G →
    (∀ p ∈ es, p.1 < nodeCount G ∧ p.2 < nodeCount G) →
    (labels G).Nodup →
    readStmts ((es.flatMap (edgeStmt G)) ++ rest) H =
      readStmts rest (es.foldl (dotStep G) H) := by
  induction es with
  | nil => intro H _ _ _ _ _; rfl
  | cons p tl ih =>
    intro H hdir hlab hn hes hnd
    have hp := hes p (List.mem_cons_self p tl)
    have hip : p.1 < nodeCount H := by rw [hn]; exact hp.1
    have hjp : p.2 < nodeCount H := by rw [hn]; exact hp.2
    have hndH : (labels H).Nodup := by rw [hlab]; exact hnd
    have hLa : labelAt G p.1 = labelAt H p.1 := labelAt_congr G H hlab.symm p.1
    have hLb : labelAt G p.2 = labelAt H p.2 := labelAt_congr G H hlab.symm p.2
    rw [List.flatMap_cons, List.append_assoc,
      readStmts_edgeStmt_step G H p _ hdir hndH hip hjp hLa hLb, List.foldl_cons]
    exact ih (dotStep G H p)
      (by rw [dotStep_directed]; exact hdir)
      (by rw [dotStep_labels]; exact hlab)
      (by rw [dotStep_nodeCount]; exact hn)
      (fun q hq => hes q (List.mem_cons_of_mem p hq))
      hnd

/-- Reading back the export starts the statement loop on a fresh graph
carrying the exported direction flag. -/
theorem read_write (G : Graphe) :
    read_dot (write_dot G) =
      readStmts ((vertexStmts G ++ (dotEdges G).flatMap (edgeStmt G)) ++ [DotTok.rbrace])
        (set_directed emptyGraph G.directed) := by
  unfold write_dot read_dot
  by_cases hd : G.directed = true
  · rw [hd]
    rfl
  · have hd' : G.directed = false := by
      cases h : G.directed
      · rfl
      · exact absurd h hd
    rw [hd']
    rfl

/-- Edges after the import edge fold: the old edges plus the covered
pairs of the folded list. -/
theorem importFold_hasEdge (G : Graphe) (x y : ℕ) (es : List (ℕ × ℕ)) :
    ∀ H : Graphe,
    (∀ p ∈ es, p.1 < nodeCount H ∧ p.2 < nodeCount H ∧ (H.directed = true ∨ p.1 ≠ p.2)) →
    (hasEdge (importFold G es H) x y = true ↔
      (hasEdge H x y = true ∨ ∃ p ∈ es, coversPair H.directed p x y)) := by
  induction es with
  | nil =>
    intro H _
    show hasEdge H x y = true ↔ _
    simp
  | cons q tl ih =>
    intro H hcond
    have hq := hcond q (List.mem_cons_self q tl)
    have hcond' : ∀ p ∈ tl, p.1 < nodeCount (add_edge H q.1 q.2
        (if G.weighted then weight G q.1 q.2 else 1)) ∧
        p.2 < nodeCount (add_edge H q.1 q.2 (if G.weighted then weight G q.1 q.2 else 1)) ∧
        ((add_edge H q.1 q.2 (if G.weighted then weight G q.1 q.2 else 1)).directed = true ∨
          p.1 ≠ p.2) := by
      intro p hp
      have h3 := hcond p (List.mem_cons_of_mem q hp)
      exact ⟨by rw [nodeCount_add_edge]; exact h3.1,
        by rw [nodeCount_add_edge]; exact h3.2.1,
        by rw [add_edge_directed]; exact h3.2.2⟩
    show hasEdge (importFold G tl (add_edge H q.1 q.2 _)) x y = true ↔ _
    rw [ih _ hcond', hasEdge_add_edge_iff H q.1 q.2 _ hq.1 hq.2.1 hq.2.2 x y,
      add_edge_directed]
    constructor
    · rintro ((he | hc) | ⟨p, hp, hcp⟩)
      · exact Or.inl he
      · exact Or.inr ⟨q, List.mem_cons_self q tl, hc⟩
      · exact Or.inr ⟨p, List.mem_cons_of_mem q hp, hcp⟩
    · rintro (he | ⟨p, hp, hcp⟩)
      · exact Or.inl (Or.inl he)
      · rcases List.mem_cons.mp hp with rfl | hp'
        · exact Or.inl (Or.inr hcp)
        · exact Or.inr ⟨p, hp', hcp⟩

/-- The import edge fold never changes the weight of a pair that is
already present. -/
theorem importFold_weight_preserved (G : Graphe) (x y : ℕ) (es : List (ℕ × ℕ)) :
    ∀ H : Graphe,
    (∀ p ∈ es, p.1 < nodeCount H ∧ p.2 < nodeCount H ∧ (H.directed = true ∨ p.1 ≠ p.2)) →
    hasEdge H x y = true →
    weight (importFold G es H) x y = weight H x y := by
  induction es with
  | nil => intro H _ _; rfl
  | cons q tl ih =>
    intro H hcond he
    have hq := hcond q (List.mem_cons_self q tl)
    have hcond' : ∀ p ∈ tl, p.1 < nodeCount (add_edge H q.1 q.2
        (if G.weighted then weight G q.1 q.2 else 1)) ∧
        p.2 < nodeCount (add_edge H q.1 q.2 (if G.weighted then weight G q.1 q.2 else 1)) ∧
        ((add_edge H q.1 q.2 (if G.weighted then weight G q.1 q.2 else 1)).directed = true ∨
          p.1 ≠ p.2) := by
      intro p hp
      have h3 := hcond p (List.mem_cons_of_mem q hp)
      exact ⟨by rw [nodeCount_add_edge]; exact h3.1,
        by rw [nodeCount_add_edge]; exact h3.2.1,
        by rw [add_edge_directed]; exact h3.2.2⟩
    have he' : hasEdge (add_edge H q.1 q.2
        (if G.weighted then weight G q.1 q.2 else 1)) x y = true :=
      (hasEdge_add_edge_iff H q.1 q.2 _ hq.1 hq.2.1 hq.2.2 x y).mpr (Or.inl he)
    show weight (importFold G tl (add_edge H q.1 q.2 _)) x y = _
    rw [ih _ hcond' he']
    exact weight_add_edge_existing H q.1 q.2 _ hq.1 hq.2.1 hq.2.2 x y he

/-- The weight produced by the import edge fold at a fresh pair covered by
exactly one listed edge is that edge's exported weight. -/
theorem importFold_weight_covered (G : Graphe) (x y : ℕ) (es : List (ℕ × ℕ)) :
    ∀ H : Graphe,
    (∀ p ∈ es, p.1 < nodeCount H ∧ p.2 < nodeCount H ∧ (H.directed = true ∨ p.1 ≠ p.2)) →
    hasEdge H x y = false →
    ∀ p, p ∈ es → coversPair H.directed p x y →
    (∀ q ∈ es, coversPair H.directed q x y → q = p) →
    weight (importFold G es H) x y = (if G.weighted then weight G p.1 p.2 else 1) := by
  induction es with
  | nil =>
    intro H _ _ p hp
    exact absurd hp (List.not_mem_nil p)
  | cons r tl ih =>
    intro H hcond hfresh p hp hcp huniq
    have hr := hcond r (List.mem_cons_self r tl)
    have hcond' : ∀ p ∈ tl, p.1 < nodeCount (add_edge H r.1 r.2
        (if G.weighted then weight G r.1 r.2 else 1)) ∧
        p.2 < nodeCount (add_edge H r.1 r.2 (if G.weighted then weight G r.1 r.2 else 1)) ∧
        ((add_edge H r.1 r.2 (if G.weighted then weight G r.1 r.2 else 1)).directed = true ∨
          p.1 ≠ p.2) := by
      intro p hp'
      have h3 := hcond p (List.mem_cons_of_mem r hp')
      exact ⟨by rw [nodeCount_add_edge]; exact h3.1,
        by rw [nodeCount_add_edge]; exact h3.2.1,
        by rw [add_edge_directed]; exact h3.2.2⟩
    by_cases hrc : coversPair H.directed r x y
    · have hrp : r = p := huniq r (List.mem_cons_self r tl) hrc
      subst hrp
      have he' : hasEdge (add_edge H r.1 r.2
          (if G.weighted then weight G r.1 r.2 else 1)) x y = true :=
        (hasEdge_add_edge_iff H r.1 r.2 _ hr.1 hr.2.1 hr.2.2 x y).mpr (Or.inr hrc)
      show weight (importFold G tl (add_edge H r.1 r.2 _)) x y = _
      rw [importFold_weight_preserved G x y tl _ hcond' he']
      exact weight_add_edge_covered H r.1 r.2 _ hr.1 hr.2.1 hr.2.2 x y hrc hfresh
    · have hp' : p ∈ tl := by
        rcases List.mem_cons.mp hp with rfl | h
        · exact absurd hcp hrc
        · exact h
      have hfresh' : hasEdge (add_edge H r.1 r.2
          (if G.weighted then weight G r.1 r.2 else 1)) x y = false := by
        cases hcur : hasEdge (add_edge H r.1 r.2
            (if G.weighted then weight G r.1 r.2 else 1)) x y
        · rfl
        · rcases (hasEdge_add_edge_iff H r.1 r.2 _ hr.1 hr.2.1 hr.2.2 x y).mp hcur with
            he | hc
          · rw [he] at hfresh
            cases hfresh
          · exact absurd hc hrc
      show weight (importFold G tl (add_edge H r.1 r.2 _)) x y = _
      refine ih _ hcond' hfresh' p hp' ?_ ?_
      · show coversPair (add_edge H r.1 r.2
          (if G.weighted then weight G r.1 r.2 else 1)).directed p x y
        rw [add_edge_directed]
        exact hcp
      · intro q hq hcq
        apply huniq q (List.mem_cons_of_mem r hq)
        rw [add_edge_directed] at hcq
        exact hcq

/-- Within the vertex range, the written edges cover a pair exactly when
the source graph has that edge. -/
theorem dotEdges_cover_iff (G : Graphe)
    (hloop : G.directed = false → noSelfLoop G = true)
    (hsym : G.directed = false → symmetricAdj G = true)
    (x y : ℕ) (hx : x < nodeCount G) (hy : y < nodeCount G) :
    (∃ p ∈ dotEdges G, coversPair G.directed p x y) ↔ hasEdge G x y = true := by
  by_cases hd : G.directed = true
  · constructor
    · rintro ⟨p, hp, hcp⟩
      rcases hcp with ⟨hx1, hy1⟩ | ⟨hdf, _, _⟩
      · have hm := (mem_dotEdges_iff_dir G hd p.1 p.2).mp hp
        rw [hx1, hy1]
        exact hm.2.2
      · exact absurd hdf (by simp [hd])
    · intro he
      exact ⟨(x, y), (mem_dotEdges_iff_dir G hd x y).mpr ⟨hx, hy, he⟩, Or.inl ⟨rfl, rfl⟩⟩
  · have hd' : G.directed = false := by
      cases h : G.directed
      · rfl
      · exact absurd h hd
    rw [dotEdges_undir G hd']
    constructor
    · rintro ⟨p, hp, hcp⟩
      have hm := (mem_undirEdges_iff G p.1 p.2).mp hp
      rcases hcp with ⟨hx1, hy1⟩ | ⟨_, hx2, hy2⟩
      · rw [hx1, hy1]
        exact hm.2.2.2
      · rw [hx2, hy2, symmetricAdj_spec G (hsym hd') p.2 p.1 hm.2.1 hm.1]
        exact hm.2.2.2
    · intro he
      rcases Nat.lt_trichotomy x y with hlt | heq | hgt
      · exact ⟨(x, y), (mem_undirEdges_iff G x y).mpr ⟨hx, hy, hlt, he⟩,
          Or.inl ⟨rfl, rfl⟩⟩
      · exfalso
        have h0 := noSelfLoop_spec G (hloop hd') x hx
        rw [← heq] at he
        rw [he] at h0
        cases h0
      · have he' : hasEdge G y x = true := by
          rw [symmetricAdj_spec G (hsym hd') y x hy hx]
          exact he
        exact ⟨(y, x), (mem_undirEdges_iff G y x).mpr ⟨hy, hx, hgt, he'⟩,
          Or.inr ⟨hd', rfl, rfl⟩⟩

/-- A pair is covered by at most one written edge. -/
theorem dotEdges_cover_unique (G : Graphe) (x y : ℕ) (p : ℕ × ℕ)
    (hp : p ∈ dotEdges G) (hcp : coversPair G.directed p x y) :
    ∀ q ∈ dotEdges G, coversPair G.directed q x y → q = p := by
  intro q hq hcq
  by_cases hd : G.directed = true
  · have hq' : q = (x, y) := by
      rcases hcq with ⟨h1, h2⟩ | ⟨hdf, _, _⟩
      · exact Prod.ext h1.symm h2.symm
      · exact absurd hdf (by simp [hd])
    have hp' : p = (x, y) := by
      rcases hcp with ⟨h1, h2⟩ | ⟨hdf, _, _⟩
      · exact Prod.ext h1.symm h2.symm
      · exact absurd hdf (by simp [hd])
    rw [hq', hp']
  · have hd' : G.directed = false := by
      cases h : G.directed
      · rfl
      · exact absurd h hd
    rw [dotEdges_undir G hd'] at hp hq
    have hpm := (mem_undirEdges_iff G p.1 p.2).mp hp
    have hqm := (mem_undirEdges_iff G q.1 q.2).mp hq
    have hplt : p.1 < p.2 := hpm.2.2.1
    have hqlt : q.1 < q.2 := hqm.2.2.1
    rcases hcp with ⟨h1, h2⟩ | ⟨_, h1, h2⟩ <;> rcases hcq with ⟨g1, g2⟩ | ⟨_, g1, g2⟩
    · exact Prod.ext (g1.symm.trans h1) (g2.symm.trans h2)
    · exfalso
      omega
    · exfalso
      omega
    · exact Prod.ext (g2.symm.trans h2) (g1.symm.trans h1)

/-- Bounds on the endpoints of written edges. -/
theorem dotEdges_bounds (G : Graphe) :
    ∀ p ∈ dotEdges G, p.1 < nodeCount G ∧ p.2 < nodeCount G := by
  intro p hp
  by_cases hd : G.directed = true
  · have hm := (mem_dotEdges_iff_dir G hd p.1 p.2).mp hp
    exact ⟨hm.1, hm.2.1⟩
  · have hd' : G.directed = false := by
      cases h : G.directed
      · rfl
      · exact absurd h hd
    rw [dotEdges_undir G hd'] at hp
    have hm := (mem_undirEdges_iff G p.1 p.2).mp hp
    exact ⟨hm.1, hm.2.1⟩

/-- The side conditions of the import edge fold hold on the vertex-phase
graph. -/
theorem dotEdges_cond (G K : Graphe) (hKd : K.directed = G.directed)
    (hKn : nodeCount K = nodeCount G) :
    ∀ p ∈ dotEdges G, p.1 < nodeCount K ∧ p.2 < nodeCount K ∧
      (K.directed = true ∨ p.1 ≠ p.2) := by
  intro p hp
  have hb := dotEdges_bounds G p hp
  refine ⟨by rw [hKn]; exact hb.1, by rw [hKn]; exact hb.2, ?_⟩
  by_cases hd : G.directed = true
  · exact Or.inl (by rw [hKd]; exact hd)
  · have hd' : G.directed = false := by
      cases h : G.directed
      · rfl
      · exact absurd h hd
    rw [dotEdges_undir G hd'] at hp
    have hm := (mem_undirEdges_iff G p.1 p.2).mp hp
    exact Or.inr (Nat.ne_of_lt hm.2.2.1)

/-- The edges produced by importing the written edge list onto the
vertex-phase graph agree with the source within range. -/
theorem importK_hasEdge (G K : Graphe) (hKd : K.directed = G.directed)
    (hKn : nodeCount K = nodeCount G) (hKe : ∀ x y, hasEdge K x y = false)
    (hloop : G.directed = false → noSelfLoop G = true)
    (hsym : G.directed = false → symmetricAdj G = true)
    (x y : ℕ) (hx : x < nodeCount G) (hy : y < nodeCount G) :
    hasEdge (importFold G (dotEdges G) K) x y = hasEdge G x y := by
  apply bool_eq_of_iff
  rw [importFold_hasEdge G x y (dotEdges G) K (dotEdges_cond G K hKd hKn)]
  constructor
  · rintro (hfalse | hcov)
    · rw [hKe x y] at hfalse
      cases hfalse
    · apply (dotEdges_cover_iff G hloop hsym x y hx hy).mp
      rw [hKd] at hcov
      exact hcov
  · intro he
    refine Or.inr ?_
    rw [hKd]
    exact (dotEdges_cover_iff G hloop hsym x y hx hy).mpr he

/-- The weights produced by importing the written edge list onto the
vertex-phase graph agree with a weighted source within range. -/
theorem importK_weight (G K : Graphe) (hKd : K.directed = G.directed)
    (hKn : nodeCount K = nodeCount G) (hKe : ∀ x y, hasEdge K x y = false)
    (hloop : G.directed = false → noSelfLoop G = true)
    (hsym : G.directed = false → symmetricAdj G = true)
    (hwsym : G.directed = false → G.weighted = true → weightSymm G = true)
    (hgw : G.weighted = true)
    (x y : ℕ) (hx : x < nodeCount G) (hy : y < nodeCount G)
    (heG : hasEdge G x y = true) :
    weight (importFold G (dotEdges G) K) x y = weight G x y := by
  obtain ⟨p, hp, hcp⟩ := (dotEdges_cover_iff G hloop hsym x y hx hy).mpr heG
  have hcp' : coversPair K.directed p x y := by rw [hKd]; exact hcp
  have huniq : ∀ q ∈ dotEdges G, coversPair K.directed q x y → q = p := by
    intro q hq hcq
    rw [hKd] at hcq
    exact dotEdges_cover_unique G x y p hp hcp q hq hcq
  rw [importFold_weight_covered G x y (dotEdges G) K (dotEdges_cond G K hKd hKn)
    (hKe x y) p hp hcp' huniq, if_pos hgw]
  rcases hcp with ⟨h1, h2⟩ | ⟨hd', h1, h2⟩
  · rw [← h1, ← h2]
  · rw [← h1, ← h2]
    have hsymw := weightSymm_spec G (hwsym hd' hgw) x y hx hy heG
    rw [hsymw]

/-- C3, witness: the theorem applied to the witness graph with target the
isolated vertex 2, unreachable from vertex 0. -/
theorem claim_C3_witness :
    IsLeast {c | ∃ l, WalkFrom dwS dwT l ∧ walkCost (graphEW dwGraph) l = c}
      ((dijkstraCmd dwGraph dwS dwT).2) ∧
    ((dijkstraCmd dwGraph dwS dwT).2 = ⊤ ↔ ¬ReachableW (graphEW dwGraph) dwS dwT) ∧
    ((dijkstraCmd dwGraph dwS dwT).2 = ⊤ → (dijkstraCmd dwGraph dwS dwT).1 = []) :=
  claim_C3 dwGraph dwS dwT rfl (by decide)

-- ------------------------------------------------------------------
-- Claim C6: the DOT round trip
-- ------------------------------------------------------------------

/-- C6: exporting a graph to the DOT token format and re-importing the
export succeeds and yields a graph for which is_equal against the
original holds (same flags, same vertex list, same edge set, identical
weights when weighted) — for every graph with duplicate-free labels that
is loop-free with symmetric adjacency when undirected (with symmetric
weights when also weighted), and that has at least one written edge when
weighted. -/
theorem claim_C6 (G : Graphe)
    (hnd : (labels G).Nodup)
    (hloop : G.directed = false → noSelfLoop G = true)
    (hsym : G.directed = false → symmetricAdj G = true)
    (hwsym : G.directed = false → G.weighted = true → weightSymm G = true)
    (hwne : G.weighted = true → dotEdges G ≠ []) :
    ∃ Gr, read_dot (write_dot G) = some Gr ∧ is_equal Gr G = true := by
  have hKl : labels (⟨(labels G).map (fun l => ⟨l, []⟩), G.directed, false⟩ : Graphe) =
      labels G := labels_mk_map (labels G) G.directed false
  have hKn : nodeCount (⟨(labels G).map (fun l => ⟨l, []⟩), G.directed, false⟩ : Graphe) =
      nodeCount G := by
    rw [nodeCount_mk_map]
    unfold labels
    rw [List.length_map]
    rfl
  have hKe : ∀ x y, hasEdge (⟨(labels G).map (fun l => ⟨l, []⟩), G.directed, false⟩ : Graphe)
      x y = false := hasEdge_mk_map (labels G) G.directed false
  have h0 := read_write G
  rw [List.append_assoc] at h0
  unfold vertexStmts at h0
  rw [readStmts_vertexPhase] at h0
  have hH1 : add_nodes (set_directed emptyGraph G.directed) (labels G) =
      (⟨(labels G).map (fun l => ⟨l, []⟩), G.directed, false⟩ : Graphe) := by
    rw [add_nodes_fresh (set_directed emptyGraph G.directed) (labels G) hnd]
    rfl
  rw [hH1] at h0
  rw [readStmts_edgePhase G (dotEdges G) [DotTok.rbrace]
    ⟨(labels G).map (fun l => ⟨l, []⟩), G.directed, false⟩ rfl hKl hKn
    (dotEdges_bounds G) hnd] at h0
  rw [readStmts_close] at h0
  by_cases hgw : G.weighted = true
  · rw [foldl_dotStep_weighted G hgw (dotEdges G) (hwne hgw)] at h0
    refine ⟨_, h0, ?_⟩
    have hnF : nodeCount (set_weighted (importFold G (dotEdges G)
        ⟨(labels G).map (fun l => ⟨l, []⟩), G.directed, false⟩) true) = nodeCount G := by
      show nodeCount (importFold G (dotEdges G) _) = nodeCount G
      rw [importFold_nodeCount]
      exact hKn
    apply is_equal_of
    · show (importFold G (dotEdges G) _).directed = G.directed
      rw [importFold_directed]
    · show (set_weighted _ true).weighted = G.weighted
      rw [hgw]
      rfl
    · show labels (importFold G (dotEdges G) _) = labels G
      rw [importFold_labels]
      exact hKl
    · intro i j hi hj
      rw [hnF] at hi hj
      show hasEdge (importFold G (dotEdges G) _) i j = hasEdge G i j
      exact importK_hasEdge G ⟨(labels G).map (fun l => ⟨l, []⟩), G.directed, false⟩ rfl hKn hKe hloop hsym i j hi hj
    · intro i j hi hj hfw he
      rw [hnF] at hi hj
      have heG : hasEdge G i j = true := by
        rw [← importK_hasEdge G ⟨(labels G).map (fun l => ⟨l, []⟩), G.directed, false⟩ rfl hKn hKe hloop hsym i j hi hj]
        exact he
      show weight (importFold G (dotEdges G) _) i j = weight G i j
      exact importK_weight G ⟨(labels G).map (fun l => ⟨l, []⟩), G.directed, false⟩ rfl hKn hKe hloop hsym hwsym hgw i j hi hj heG
  · have hgw' : G.weighted = false := by
      cases h : G.weighted
      · rfl
      · exact absurd h hgw
    rw [foldl_dotStep_unweighted G hgw' (dotEdges G)] at h0
    refine ⟨_, h0, ?_⟩
    have hnF : nodeCount (importFold G (dotEdges G)
        ⟨(labels G).map (fun l => ⟨l, []⟩), G.directed, false⟩) = nodeCount G := by
      rw [importFold_nodeCount]
      exact hKn
    apply is_equal_of
    · rw [importFold_directed]
    · rw [importFold_weighted, hgw']
    · rw [importFold_labels]
      exact hKl
    · intro i j hi hj
      rw [hnF] at hi hj
      exact importK_hasEdge G ⟨(labels G).map (fun l => ⟨l, []⟩), G.directed, false⟩ rfl hKn hKe hloop hsym i j hi hj
    · intro i j hi hj hfw he
      rw [importFold_weighted] at hfw
      exact absurd hfw (by simp)

/-- C6, counterexample to the unconditional claim: a weighted graph with
one vertex and no edges round-trips to a graph that is_equal rejects,
because the DOT text of an edgeless graph has no place to record the
weighted flag. -/
theorem claim_C6_cex :
    (read_dot (write_dot wEmptyGraph)).map (fun H => is_equal H wEmptyGraph) =
      some false := by
  decide

/-- C6, witness: the round-trip theorem applied to a concrete weighted
undirected graph with two vertices and one edge. -/
theorem claim_C6_witness :
    ∃ Gr, read_dot (write_dot wPathGraph) = some Gr ∧
      is_equal Gr wPathGraph = true :=
  claim_C6 wPathGraph (by decide) (fun _ => by decide) (fun _ => by decide)
    (fun _ _ => by decide) (fun _ => by decide)

end GT
